import Mathlib

/-!
Verification of the pachyderm PFS core against its specification.

The Go sources embedded here (shallowly) are:
  * `src/pfs/drive/server/local.go` — block store (`putOneBlock`, `PutBlock`),
    diff store (`CreateDiff`, `ListDiff`, `pathToDiff`);
  * `src/pkg/shard/sharder.go` — role assignment (`assignMaster`,
    `assignReplica`, `swapReplica`, the `AssignRoles` loops, `fillRoles`);
  * `src/pfs/route/route.go` (api server half) — `FilePut` leading-slash
    check and the `Master(shard)` replica-reconciliation loop.

Go maps are embedded as association lists (iteration order of a Go map is
arbitrary; the embedding fixes the list order — all properties proved below
are independent of that order).  Go `uint64` arithmetic is embedded as `Nat`
with an explicit `% 2 ^ 64` at the one multiplication that can overflow
(`numShards * numReplicas`); theorems carry in-range hypotheses making the
reduction exact.  Byte streams are `List Nat`.
-/

namespace PFS


/-! ### Association-list embedding of Go maps -/

/-- Lookup in an association list (a Go map read `m[k]`). -/
def lookupA {α β : Type} [DecidableEq α] : List (α × β) → α → Option β
  | [], _ => none
  | p :: rest, a => if p.1 = a then some p.2 else lookupA rest a


/-- Replace the value bound to key `a` (a Go map write `m[k] = v` to an
existing key).  Keys are unchanged. -/
def updateA {α β : Type} [DecidableEq α] (l : List (α × β)) (a : α) (b : β) : List (α × β) :=
  l.map (fun p => if p.1 = a then (a, b) else p)


/-- A Go map write that may also insert a missing key. -/
def setA {α β : Type} [DecidableEq α] (l : List (α × β)) (a : α) (b : β) : List (α × β) :=
  if (lookupA l a).isSome then updateA l a b else (a, b) :: l


/-- The keys of an association list, in order. -/
def keysA {α β : Type} (l : List (α × β)) : List α := l.map Prod.fst


/-! ### Block store (`src/pfs/drive/server/local.go`)

`PutBlock` wraps a `bufio.Scanner` (split function `bufio.ScanLines`) around
the input stream and repeatedly calls `putOneBlock`.  Bytes are `Nat`s; `10`
is the newline byte and `13` the carriage return.  A block is identified by
the cryptographic digest of exactly the bytes written to it, so the embedding
carries the digested byte sequence itself in the `block` field (the digest
function `newHash`/`getBlock` is declared outside the sources provided and
is injective by design). -/

/-- `bufio.dropCR`: strip one trailing carriage return from a line. -/
def dropCR (l : List Nat) : List Nat :=
  if l.getLast? = some 13 then l.dropLast else l


/-- Split a byte stream at each newline; the newline is consumed.
Mirrors repeated `bufio.ScanLines` calls: the accumulator holds the bytes of
the current line, in reverse. -/
def splitLinesAux : List Nat → List Nat → List (List Nat)
  | [], cur => [cur.reverse]
  | b :: rest, cur =>
    if b = 10 then cur.reverse :: splitLinesAux rest []
    else splitLinesAux rest (b :: cur)


/-- The token sequence a `bufio.Scanner` with `bufio.ScanLines` yields for a
byte stream: lines split at `\n`, a trailing `\r` dropped from each, and no
empty final token when the stream ends in a newline.
(`bufio.MaxScanTokenSize` caps a single line at 64 KiB; theorems below carry
that bound as a hypothesis where it matters.) -/
def scanLines (input : List Nat) : List (List Nat) :=
  (if (splitLinesAux input []).getLast? = some [] then (splitLinesAux input []).dropLast
   else splitLinesAux input []).map dropCR


/-- `drive.BlockRef`: a block identified by the digested bytes, plus a byte
range `[lower, upper)`. -/
structure BlockRef where
  block : List Nat
  lower : Nat
  upper : Nat
deriving DecidableEq


/-- Modelled from the spec: the `blockSize` constant is declared outside the
provided sources; the spec fixes it at a nominal 8 MiB. -/
def blockSize : Nat := 8 * 1024 * 1024


/-- The scan loop of `putOneBlock`: each token gets its newline put back and
is hashed and written; the loop stops once `bytesWritten > blockSize`.
Returns the bytes written (the digest preimage of the produced block, and the
block's length) together with the tokens the scanner has not yet consumed.
`acc` is the bytes written so far (`[]` at entry). -/
def putOneBlock (blockSize : Nat) : List (List Nat) → List Nat → List Nat × List (List Nat)
  | [], acc => (acc, [])
  | t :: rest, acc =>
    let acc2 := acc ++ t ++ [10]
    if acc2.length > blockSize then (acc2, rest)
    else putOneBlock blockSize rest acc2


/-- The `PutBlock` loop with explicit fuel (the Go loop terminates because
every chunk of size `≥ blockSize` consumes at least one token when
`blockSize > 0`; `putBlock` below supplies sufficient fuel). -/
def putBlockFuel (blockSize : Nat) : Nat → List (List Nat) → List BlockRef
  | 0, _ => []
  | fuel + 1, tokens =>
    match putOneBlock blockSize tokens [] with
    | (content, rest) =>
      if content.length < blockSize then [⟨content, 0, content.length⟩]
      else ⟨content, 0, content.length⟩ :: putBlockFuel blockSize fuel rest


/-- `PutBlock`: call `putOneBlock` until it produces a block strictly shorter
than `blockSize`; return one `BlockRef` per chunk, in order. -/
def putBlock (blockSize : Nat) (tokens : List (List Nat)) : List BlockRef :=
  putBlockFuel blockSize (tokens.length + 1) tokens


/-- What becomes of `putOneBlock`'s temporary file. -/
inductive TmpFate where
  | removed
  | renamed
  | kept
deriving DecidableEq


/-- The deferred cleanup at the end of `putOneBlock`: after closing the
temporary file, a call that produced no `BlockRef` returns at once (the
temporary file stays in the tmp directory); otherwise the temporary is
removed when a block with the same digest already exists and is renamed into
the canonical block path when it does not. -/
def putOneBlockCleanup (result : Option BlockRef) (blockExists : Bool) : TmpFate :=
  match result with
  | none => TmpFate.kept
  | some _ => if blockExists then TmpFate.removed else TmpFate.renamed


/-- The `BlockRef` a single `putOneBlock` call returns, `none` when the
scanner reports an error (`scanner.Err() != nil`).  `tokens` are the tokens
the scanner yields before failing; the error is only observed when the scan
loop actually exhausts them (`rest = []`) rather than stopping early on
size. -/
def putOneBlockResult (blockSize : Nat) (tokens : List (List Nat)) (scanErr : Bool) :
    Option BlockRef :=
  match putOneBlock blockSize tokens [] with
  | (content, rest) =>
    if scanErr ∧ rest = [] then none else some ⟨content, 0, content.length⟩


/-- One `putOneBlock` call, from scanner outcome to the fate of its temporary
file. -/
def putOneBlockFate (blockSize : Nat) (tokens : List (List Nat)) (scanErr : Bool)
    (blockExists : Bool) : TmpFate :=
  putOneBlockCleanup (putOneBlockResult blockSize tokens scanErr) blockExists


/-! ### Diff store (`src/pfs/drive/server/local.go`) -/

/-- `drive.Diff`: a commit restricted to one shard. -/
structure Diff where
  repo : String
  commitID : String
  shard : Nat
deriving DecidableEq


/-- `strings.HasPrefix`, on the character data (Go compares bytes; the
strings handled here are ASCII, where the two coincide). -/
def goHasPrefix (s pre : String) : Bool :=
  pre.data.isPrefixOf s.data


/-- `strings.TrimPrefix`. -/
def trimPref (s pre : String) : String :=
  if goHasPrefix s pre then ⟨s.data.drop pre.data.length⟩ else s


/-- `strings.Split(s, sep)` for a one-character separator; the accumulator
holds the current field, in reverse. -/
def splitCharAux (c : Char) : List Char → List Char → List (List Char)
  | [], cur => [cur.reverse]
  | b :: rest, cur =>
    if b = c then cur.reverse :: splitCharAux c rest []
    else splitCharAux c rest (b :: cur)


def goSplitOn (s : String) (c : Char) : List String :=
  (splitCharAux c s.data []).map (fun l => ⟨l⟩)


/-- `strconv.ParseUint(s, 10, 64)`: `none` on empty input, a non-digit, or a
value outside `uint64` range (Go reports `ErrRange`, an error). -/
def parseUint64 (s : String) : Option Nat :=
  if s = "" then none
  else
    match s.data.foldl (fun acc c =>
        match acc with
        | none => none
        | some n => if c.isDigit then some (n * 10 + (c.toNat - 48)) else none)
        (some 0) with
    | none => none
    | some n => if n < 2 ^ 64 then some n else none


/-- `pathToDiff`: strip the diff-directory, split the remainder on `/`, and
read components `[0]`, `[1]`, `[2]` as repo, commit id, and shard.  Returns
`none` (the caller skips the path) when fewer than three components remain or
the shard fails to parse. -/
def pathToDiff (diffDir : String) (path : String) : Option Diff :=
  match goSplitOn (trimPref path diffDir) '/' with
  | repoComp :: commitComp :: shardComp :: _ =>
    match parseUint64 shardComp with
    | none => none
    | some shard => some ⟨repoComp, commitComp, shard⟩
  | _ => none


/-- `ListDiff`: walk every path under the diff directory; parse each as a
diff (skipping those that do not parse, e.g. directories); for a parsed diff
whose shard equals the requested one, read the record (`none` result = read
error aborts the walk) and send it.  Returns the sent records in walk
order. -/
def listDiffSent {α : Type} (diffDir : String) (walkPaths : List String)
    (readDiff : Diff → Option α) (shard : Nat) : Option (List α) :=
  match walkPaths with
  | [] => some []
  | path :: rest =>
    match pathToDiff diffDir path with
    | none => listDiffSent diffDir rest readDiff shard
    | some diff =>
      if diff.shard = shard then
        match readDiff diff with
        | none => none
        | some info =>
          match listDiffSent diffDir rest readDiff shard with
          | none => none
          | some sent => some (info :: sent)
      else listDiffSent diffDir rest readDiff shard


/-! ### `CreateDiff` write path (`src/pfs/drive/server/local.go`)

`CreateDiff` marshals the record and calls `os.MkdirAll` on the parent
directory followed by `ioutil.WriteFile` on the canonical diff path.  The
file-system effects are embedded as a small trace language; `obsStates`
enumerates every externally observable store state during the trace,
including mid-write states of `WriteFile` (which opens with `O_TRUNC` and may
stop after any prefix). -/

inductive FSOp where
  | mkdirAll (path : String)
  | writeFile (path : String) (data : List Nat)


/-- The canonical diff path `{diffDir}/{repo}/{commitID}/{shard}`. -/
def diffPathOf (diffDir repo commitID : String) (shard : Nat) : String :=
  diffDir ++ "/" ++ repo ++ "/" ++ commitID ++ "/" ++ toString shard


/-- The file-system trace of `CreateDiff` for an already-marshaled record
`data`. -/
def createDiffOps (diffDir repo commitID : String) (shard : Nat) (data : List Nat) :
    List FSOp :=
  [FSOp.mkdirAll (diffDir ++ "/" ++ repo ++ "/" ++ commitID),
   FSOp.writeFile (diffPathOf diffDir repo commitID shard) data]


/-- The observable states while one `WriteFile` runs: after the `O_TRUNC`
open, the file holds each prefix of `data` in turn. -/
def obsWrite (σ : List (String × List Nat)) (p : String) (data : List Nat) :
    List (List (String × List Nat)) :=
  (List.range (data.length + 1)).map (fun k => setA σ p (data.take k))


/-- All observable store states while a trace executes, starting from `σ`. -/
def obsStates (σ : List (String × List Nat)) : List FSOp → List (List (String × List Nat))
  | [] => [σ]
  | FSOp.mkdirAll _ :: rest => σ :: obsStates σ rest
  | FSOp.writeFile p d :: rest => σ :: (obsWrite σ p d ++ obsStates (setA σ p d) rest)


/-! ### Sharder (`src/pkg/shard/sharder.go`)

Shard sets (`Masters`/`Replicas`, Go `map[uint64]bool`) are lists of shards
without duplicates (inserts are guarded by `hasShard`, which the code checks
first).  The role table `map[string]*ServerRole` is an association list keyed
by address. -/

structure ServerRole where
  address : String
  version : Int
  masters : List Nat
  replicas : List Nat
deriving DecidableEq


/-- `hasShard`: the server already holds the shard in either capacity. -/
def hasShard (serverRole : ServerRole) (shard : Nat) : Prop :=
  shard ∈ serverRole.masters ∨ shard ∈ serverRole.replicas


instance (serverRole : ServerRole) (shard : Nat) : Decidable (hasShard serverRole shard) :=
  inferInstanceAs (Decidable (_ ∨ _))


/-- A Go map insert `m[shard] = true` on a shard set. -/
def insertShard (shards : List Nat) (shard : Nat) : List Nat :=
  if shard ∈ shards then shards else shard :: shards


/-- `assignMaster`.  Go mutates `serverRoles`, `masters` and `*remainder` and
returns `bool`; the embedding returns `some` of the new state exactly when
the Go function returns `true` (a `false` return leaves everything
unchanged). -/
def assignMaster (serverRoles : List (String × ServerRole)) (masters : List (Nat × String))
    (address : String) (shard : Nat) (masterRolesPerServer : Nat)
    (masterRolesRemainder : Nat) :
    Option (List (String × ServerRole) × List (Nat × String) × Nat) :=
  match lookupA serverRoles address with
  | none => none
  | some serverRole =>
    if serverRole.masters.length > masterRolesPerServer then none
    else if serverRole.masters.length = masterRolesPerServer ∧ masterRolesRemainder = 0 then
      none
    else if hasShard serverRole shard then none
    else
      some (updateA serverRoles address
          { serverRole with masters := insertShard serverRole.masters shard },
        setA masters shard address,
        if serverRole.masters.length = masterRolesPerServer ∧ masterRolesRemainder > 0 then
          masterRolesRemainder - 1
        else masterRolesRemainder)


/-- `assignReplica` (the `masters` argument is taken but never read, as in
the source). -/
def assignReplica (serverRoles : List (String × ServerRole)) (masters : List (Nat × String))
    (replicas : List (Nat × List String)) (address : String) (shard : Nat)
    (replicaRolesPerServer : Nat) (replicaRolesRemainder : Nat) :
    Option (List (String × ServerRole) × List (Nat × List String) × Nat) :=
  match lookupA serverRoles address with
  | none => none
  | some serverRole =>
    if serverRole.replicas.length > replicaRolesPerServer then none
    else if serverRole.replicas.length = replicaRolesPerServer ∧ replicaRolesRemainder = 0 then
      none
    else if hasShard serverRole shard then none
    else
      some (updateA serverRoles address
          { serverRole with replicas := insertShard serverRole.replicas shard },
        setA replicas shard (((lookupA replicas shard).getD []) ++ [address]),
        if serverRole.replicas.length = replicaRolesPerServer ∧ replicaRolesRemainder > 0 then
          replicaRolesRemainder - 1
        else replicaRolesRemainder)


/-- `removeReplica`: drop `address` from the replica list of `shard`. -/
def removeReplica (replicas : List (Nat × List String)) (shard : Nat) (address : String) :
    List (Nat × List String) :=
  setA replicas shard (((lookupA replicas shard).getD []).filter (fun a => a ≠ address))


/-- The body of `swapReplica` once a partner `(swapID, swapShard)` passes all
checks: steal `swapShard` from `swapID`, hand `shard` to `swapID` (capacity
`2^64 - 1 = math.MaxUint64` and a private zero remainder) and `swapShard` to
`address` (real capacity, private zero remainder).  As in the source the two
`assignReplica` return values are ignored: a failing call leaves the state
unchanged. -/
def swapApply (serverRoles : List (String × ServerRole)) (masters : List (Nat × String))
    (replicas : List (Nat × List String)) (address : String) (shard : Nat)
    (replicaRolesPerServer : Nat) (swapID : String) (swapServerRole : ServerRole)
    (swapShard : Nat) : List (String × ServerRole) × List (Nat × List String) :=
  let swapServerRole' :=
    { swapServerRole with replicas := swapServerRole.replicas.filter (fun x => x ≠ swapShard) }
  let serverRoles1 := updateA serverRoles swapID swapServerRole'
  let replicas1 := removeReplica replicas swapShard swapID
  let step2 :=
    match assignReplica serverRoles1 masters replicas1 swapID shard (2 ^ 64 - 1) 0 with
    | some (r, rep, _) => (r, rep)
    | none => (serverRoles1, replicas1)
  match assignReplica step2.1 masters step2.2 address swapShard replicaRolesPerServer 0 with
  | some (r, rep, _) => (r, rep)
  | none => step2


/-- The inner loop of `swapReplica` over `swapServerRole.Replicas`. -/
def swapInner (serverRoles : List (String × ServerRole)) (masters : List (Nat × String))
    (replicas : List (Nat × List String)) (serverRole : ServerRole) (address : String)
    (shard : Nat) (replicaRolesPerServer : Nat) (swapID : String)
    (swapServerRole : ServerRole) :
    List Nat → Option (List (String × ServerRole) × List (Nat × List String))
  | [] => none
  | swapShard :: restShards =>
    if hasShard serverRole swapShard then
      swapInner serverRoles masters replicas serverRole address shard replicaRolesPerServer
        swapID swapServerRole restShards
    else if hasShard swapServerRole shard then
      swapInner serverRoles masters replicas serverRole address shard replicaRolesPerServer
        swapID swapServerRole restShards
    else
      some (swapApply serverRoles masters replicas address shard replicaRolesPerServer
        swapID swapServerRole swapShard)


/-- The outer loop of `swapReplica` over the role table. -/
def swapOuter (serverRoles : List (String × ServerRole)) (masters : List (Nat × String))
    (replicas : List (Nat × List String)) (serverRole : ServerRole) (address : String)
    (shard : Nat) (replicaRolesPerServer : Nat) :
    List (String × ServerRole) → Option (List (String × ServerRole) × List (Nat × List String))
  | [] => none
  | (swapID, swapServerRole) :: rest =>
    if swapID = address then
      swapOuter serverRoles masters replicas serverRole address shard replicaRolesPerServer rest
    else
      match swapInner serverRoles masters replicas serverRole address shard
          replicaRolesPerServer swapID swapServerRole swapServerRole.replicas with
      | some res => some res
      | none =>
        swapOuter serverRoles masters replicas serverRole address shard replicaRolesPerServer
          rest


/-- `swapReplica`. -/
def swapReplica (serverRoles : List (String × ServerRole)) (masters : List (Nat × String))
    (replicas : List (Nat × List String)) (address : String) (shard : Nat)
    (replicaRolesPerServer : Nat) :
    Option (List (String × ServerRole) × List (Nat × List String)) :=
  match lookupA serverRoles address with
  | none => none
  | some serverRole =>
    if serverRole.replicas.length ≥ replicaRolesPerServer then none
    else
      swapOuter serverRoles masters replicas serverRole address shard replicaRolesPerServer
        serverRoles


/-- The candidate order the `Master:`/`Replica:` loops try for one shard:
the prior master, prior replicas, servers already holding the shard locally,
then every live server. -/
def masterCands (oldMasters : Nat → Option String) (oldReplicas : Nat → List String)
    (shardLocations : Nat → List String) (servers : List String) (shard : Nat) :
    List String :=
  (match oldMasters shard with
   | some a => [a]
   | none => []) ++ oldReplicas shard ++ shardLocations shard ++ servers


/-- Try `assignMaster` on each candidate in turn; the first success wins
(`continue Master` in the source). -/
def tryAssignMaster (serverRoles : List (String × ServerRole))
    (masters : List (Nat × String)) (rem : Nat) (shard : Nat) (per : Nat) :
    List String → Option (List (String × ServerRole) × List (Nat × String) × Nat)
  | [] => none
  | address :: rest =>
    match assignMaster serverRoles masters address shard per rem with
    | some res => some res
    | none => tryAssignMaster serverRoles masters rem shard per rest


/-- The `Master:` loop over all shards.  `none` when some shard finds no
acceptable server (`FailedToAssignRoles`: the pass writes nothing). -/
def assignMastersLoop (cands : Nat → List String) (per : Nat) :
    List Nat → List (String × ServerRole) → List (Nat × String) → Nat →
      Option (List (String × ServerRole) × List (Nat × String) × Nat)
  | [], serverRoles, masters, rem => some (serverRoles, masters, rem)
  | shard :: rest, serverRoles, masters, rem =>
    match tryAssignMaster serverRoles masters rem shard per (cands shard) with
    | none => none
    | some (r, m, rem') => assignMastersLoop cands per rest r m rem'


/-- Try `assignReplica` on each candidate in turn. -/
def tryAssignReplica (serverRoles : List (String × ServerRole))
    (masters : List (Nat × String)) (replicas : List (Nat × List String)) (rem : Nat)
    (shard : Nat) (per : Nat) :
    List String → Option (List (String × ServerRole) × List (Nat × List String) × Nat)
  | [] => none
  | address :: rest =>
    match assignReplica serverRoles masters replicas address shard per rem with
    | some res => some res
    | none => tryAssignReplica serverRoles masters replicas rem shard per rest


/-- The final fallback: try `swapReplica` with every server. -/
def trySwap (serverRoles : List (String × ServerRole)) (masters : List (Nat × String))
    (replicas : List (Nat × List String)) (shard : Nat) (per : Nat) :
    List String → Option (List (String × ServerRole) × List (Nat × List String))
  | [] => none
  | address :: rest =>
    match swapReplica serverRoles masters replicas address shard per with
    | some res => some res
    | none => trySwap serverRoles masters replicas shard per rest


/-- The `Replica:` loop over all shards for one replica index. -/
def assignReplicasShardLoop (masters : List (Nat × String)) (cands : Nat → List String)
    (servers : List String) (per : Nat) :
    List Nat → List (String × ServerRole) → List (Nat × List String) → Nat →
      Option (List (String × ServerRole) × List (Nat × List String) × Nat)
  | [], serverRoles, replicas, rem => some (serverRoles, replicas, rem)
  | shard :: rest, serverRoles, replicas, rem =>
    match tryAssignReplica serverRoles masters replicas rem shard per (cands shard) with
    | some (r, rep, rem') =>
      assignReplicasShardLoop masters cands servers per rest r rep rem'
    | none =>
      match trySwap serverRoles masters replicas shard per servers with
      | some (r, rep) => assignReplicasShardLoop masters cands servers per rest r rep rem
      | none => none


/-- The outer replica loop (`for replica := 0; replica < numReplicas`). -/
def assignReplicasLoop (masters : List (Nat × String)) (cands : Nat → List String)
    (servers : List String) (per : Nat) (numShards : Nat) :
    Nat → List (String × ServerRole) → List (Nat × List String) → Nat →
      Option (List (String × ServerRole) × List (Nat × List String) × Nat)
  | 0, serverRoles, replicas, rem => some (serverRoles, replicas, rem)
  | n + 1, serverRoles, replicas, rem =>
    match assignReplicasShardLoop masters cands servers per (List.range numShards)
        serverRoles replicas rem with
    | none => none
    | some (r, rep, rem') => assignReplicasLoop masters cands servers per numShards n r rep rem'


/-- The fresh role table one watch iteration starts from: every live server
begins with empty master and replica sets at the next version. -/
def initRoles (servers : List String) (version : Int) : List (String × ServerRole) :=
  servers.map (fun address => (address, ⟨address, version, [], []⟩))


/-- One successful assignment pass of `AssignRoles` (the body of the
`WatchAll` callback once the stale-role GC and the same-servers check have
run): compute the per-server quotas, assign every shard a master, then give
every shard its replicas.  `servers` is the decoded server-state set (one
entry per live address, in map-iteration order), `oldMasters`, `oldReplicas`
and `shardLocations` the preference data from the previous pass.  `none`
means the pass wrote nothing (no live servers, or `FailedToAssignRoles`).
The one `uint64` multiplication is reduced `% 2 ^ 64` as in Go. -/
def assignRoles (numShards numReplicas : Nat) (servers : List String)
    (oldMasters : Nat → Option String) (oldReplicas : Nat → List String)
    (shardLocations : Nat → List String) (version : Int) :
    Option (List (String × ServerRole)) :=
  if servers.isEmpty then none
  else
    let K := servers.length
    let masterRolesPerServer := numShards / K
    let masterRolesRemainder := numShards % K
    let replicaRolesPerServer := ((numShards * numReplicas) % 2 ^ 64) / K
    let replicaRolesRemainder := ((numShards * numReplicas) % 2 ^ 64) % K
    let cands := masterCands oldMasters oldReplicas shardLocations servers
    match assignMastersLoop cands masterRolesPerServer (List.range numShards)
        (initRoles servers version) [] masterRolesRemainder with
    | none => none
    | some (serverRoles, masters, _) =>
      match assignReplicasLoop masters cands servers replicaRolesPerServer numShards
          numReplicas serverRoles [] replicaRolesRemainder with
      | none => none
      | some (serverRoles', _, _) => some serverRoles'


/-- `ShardAddresses`: the per-shard entry of the published `Addresses`
record (a single master address and a replica set). -/
structure ShardAddresses where
  master : String
  replicas : List String
deriving DecidableEq


/-- Building the `Addresses` record from the new roles: initialize every
shard with an empty entry, then for each server role set the master field
for its master shards and extend the replica set for its replica shards. -/
def buildAddresses (numShards : Nat) (serverRoles : List (String × ServerRole)) :
    List (Nat × ShardAddresses) :=
  let init := (List.range numShards).map (fun shard => (shard, ShardAddresses.mk "" []))
  serverRoles.foldl (fun addrs p =>
    let addrs1 := p.2.masters.foldl (fun acc shard =>
      acc.map (fun q => if q.1 = shard then (q.1, { q.2 with master := p.2.address }) else q))
      addrs
    p.2.replicas.foldl (fun acc shard =>
      acc.map (fun q =>
        if q.1 = shard then (q.1, { q.2 with replicas := q.2.replicas ++ [p.2.address] })
        else q))
      addrs1) init


/-! ### `fillRoles` (`src/pkg/shard/sharder.go`) -/

/-- Insertion into a list sorted ascending; `sortInts` mirrors
`sort.Sort(int64Slice)` whose `Less` is `s[i] < s[j]`. -/
def insertSorted (x : Int) : List Int → List Int
  | [] => [x]
  | y :: ys => if x ≤ y then x :: y :: ys else y :: insertSorted x ys


def sortInts (l : List Int) : List Int := l.foldr insertSorted []


/-- The version selection of one `fillRoles` watch iteration: collect the
decoded role versions, sort ascending, and truncate to `versions[0:2]` when
more than two are present. -/
def fillRolesVersions (versions : List Int) : List Int :=
  let sorted := sortInts versions
  if sorted.length > 2 then sorted.take 2 else sorted


/-- `shards(serverRole)`: master shards then replica shards. -/
def shardsOf (serverRole : ServerRole) : List Nat :=
  serverRole.masters ++ serverRole.replicas


/-- `containsShard`: some retained role version still references the
shard. -/
def containsShard (roles : List (Int × ServerRole)) (shard : Nat) : Prop :=
  ∃ p ∈ roles, shard ∈ p.2.masters ∨ shard ∈ p.2.replicas


instance (roles : List (Int × ServerRole)) (shard : Nat) :
    Decidable (containsShard roles shard) :=
  inferInstanceAs (Decidable (∃ _ ∈ _, _ ∨ _))


/-- The result of one `fillRoles` watch iteration: `AddShard` calls
(as `(version - 1, shard)` pairs, the arguments passed to the driver),
`RemoveShard` calls, and the role versions retained in `oldRoles` for the
next iteration. -/
structure FillResult where
  adds : List (Int × Nat)
  removes : List (Int × Nat)
  retained : List (Int × ServerRole)
deriving DecidableEq


/-- The install loop: for each (truncated, ascending) version not yet seen,
`AddShard` every shard of the role not already covered by `oldRoles`, then
record the version in `oldRoles`. -/
def fillInstall (roles : List (Int × ServerRole)) :
    List Int → List (Int × ServerRole) → List (Int × Nat) →
      List (Int × ServerRole) × List (Int × Nat)
  | [], oldRoles, adds => (oldRoles, adds)
  | v :: vs, oldRoles, adds =>
    if (lookupA oldRoles v).isSome then fillInstall roles vs oldRoles adds
    else
      match lookupA roles v with
      | none => fillInstall roles vs oldRoles adds
      | some serverRole =>
        let newAdds :=
          (shardsOf serverRole).filter (fun shard => ¬ containsShard oldRoles shard)
        fillInstall roles vs (oldRoles ++ [(v, serverRole)])
          (adds ++ newAdds.map (fun shard => (v - 1, shard)))


/-- The removal loop: for each previously retained version no longer present
in the decoded role map, `RemoveShard` every shard no retained decoded role
still references. -/
def fillRemove (roles : List (Int × ServerRole)) :
    List (Int × ServerRole) → List (Int × Nat) → List (Int × Nat)
  | [], removes => removes
  | (v, serverRole) :: rest, removes =>
    if (lookupA roles v).isSome then fillRemove roles rest removes
    else
      let newRemoves :=
        (shardsOf serverRole).filter (fun shard => ¬ containsShard roles shard)
      fillRemove roles rest (removes ++ newRemoves.map (fun shard => (v - 1, shard)))


/-- One whole `fillRoles` watch iteration over the decoded roles (in
map-iteration order). -/
def fillRolesStep (oldRoles : List (Int × ServerRole)) (decoded : List ServerRole) :
    FillResult :=
  let roles := decoded.foldl (fun m serverRole => setA m serverRole.version serverRole) []
  let versions := fillRolesVersions (decoded.map (fun serverRole => serverRole.version))
  let (oldRoles', adds) := fillInstall roles versions oldRoles []
  let removes := fillRemove roles oldRoles' []
  let retained := versions.foldl (fun m v =>
    match lookupA roles v with
    | some serverRole => m ++ [(v, serverRole)]
    | none => m) []
  ⟨adds, removes, retained⟩


/-! ### API server (`src/pfs/route/route.go`)

`FilePut` and the `Master(shard)` reconciliation loop.

Go pointers are embedded as `GoPtr`: an allocation identity plus the pointee
value.  Dereferenced struct comparison (`*a != *b`) compares pointer-typed
fields by identity and scalar fields by value — exactly what the generated
`pfs.CommitInfo` struct gives the source's `*commitInfo !=
*localCommitInfo[i]`. -/

structure GoPtr (α : Type) where
  id : Nat
  val : α
deriving DecidableEq


structure Repo where
  name : String
deriving DecidableEq


structure Commit where
  repo : Option (GoPtr Repo)
  id : String
deriving DecidableEq


structure Timestamp where
  seconds : Int
  nanos : Int
deriving DecidableEq


/-- `pfs.CommitInfo` as laid out in memory: `Commit`, `ParentCommit`,
`Started` and `Finished` are pointers; `CommitType` and `SizeBytes` are
scalars. -/
structure CommitInfo where
  commit : Option (GoPtr Commit)
  commitType : Nat
  parentCommit : Option (GoPtr Commit)
  started : Option (GoPtr Timestamp)
  finished : Option (GoPtr Timestamp)
  sizeBytes : Nat
deriving DecidableEq


/-- Pointer equality on an optional pointer field: `nil` equals `nil`, and
two non-nil pointers are equal exactly when they are the same allocation. -/
def ptrEq {α : Type} : Option (GoPtr α) → Option (GoPtr α) → Bool
  | none, none => true
  | some p, some q => p.id == q.id
  | _, _ => false


/-- The source's divergence test `*commitInfo != *localCommitInfo[i]`:
shallow struct inequality on `CommitInfo` (pointer fields by identity,
scalar fields by value). -/
def goNeCommitInfo (a b : CommitInfo) : Bool :=
  !(ptrEq a.commit b.commit && a.commitType == b.commitType &&
    ptrEq a.parentCommit b.parentCommit && ptrEq a.started b.started &&
    ptrEq a.finished b.finished && a.sizeBytes == b.sizeBytes)


/-- Field-by-field equality over the defined `CommitInfo` fields, the
comparison the spec mandates: pointer fields are compared by the values they
reference, recursively. -/
def deepEqRepo : Option (GoPtr Repo) → Option (GoPtr Repo) → Bool
  | none, none => true
  | some r, some r' => r.val == r'.val
  | _, _ => false


def deepEqCommit : Option (GoPtr Commit) → Option (GoPtr Commit) → Bool
  | none, none => true
  | some p, some q => deepEqRepo p.val.repo q.val.repo && p.val.id == q.val.id
  | _, _ => false


def deepEqTimestamp : Option (GoPtr Timestamp) → Option (GoPtr Timestamp) → Bool
  | none, none => true
  | some p, some q => p.val == q.val
  | _, _ => false


def deepEqCommitInfo (a b : CommitInfo) : Bool :=
  deepEqCommit a.commit b.commit && a.commitType == b.commitType &&
    deepEqCommit a.parentCommit b.parentCommit && deepEqTimestamp a.started b.started &&
    deepEqTimestamp a.finished b.finished && a.sizeBytes == b.sizeBytes


/-- The commit-walk of `Master(shard)` for one repo: iterate the remote
commit list; while an already-held local commit exists at the same index,
compare `*commitInfo != *localCommitInfo[i]` and abort with "divergent data"
on inequality; past the local prefix, pull each remaining commit
(`PullDiff` + `DiffPush`).  Returns the pulled commits in order. -/
def reconcileCommits : List CommitInfo → List CommitInfo → Except String (List CommitInfo)
  | [], _ => Except.ok []
  | commitInfo :: remoteRest, localCommitInfo :: localRest =>
    if goNeCommitInfo commitInfo localCommitInfo then Except.error "divergent data"
    else reconcileCommits remoteRest localRest
  | commitInfo :: remoteRest, [] =>
    match reconcileCommits remoteRest [] with
    | Except.error e => Except.error e
    | Except.ok pulled => Except.ok (commitInfo :: pulled)


/-- The domain-level error kinds `FilePut` can surface before doing any
routing. -/
inductive FilePutError where
  | leadingSlash (path : String)
  | dirWithValue
deriving DecidableEq


/-- The action `FilePut` takes after its argument checks. -/
inductive FilePutAction where
  | fanOutToAll
  | routeToFileMaster
deriving DecidableEq


/-- `FilePut`: reject a path with a leading slash before any routing or
append; a directory request with a value is also rejected; a directory
request fans out to every node; a regular file is routed to the master of
`GetShard(file)`. -/
def filePut (path : String) (isDir : Bool) (valueLength : Nat) :
    Except FilePutError FilePutAction :=
  if goHasPrefix path "/" then Except.error (FilePutError.leadingSlash path)
  else if isDir then
    if valueLength > 0 then Except.error FilePutError.dirWithValue
    else Except.ok FilePutAction.fanOutToAll
  else Except.ok FilePutAction.routeToFileMaster


/-! ### The master-phase invariant -/

/-- Invariant of the `Master:` loop: `done` shards assigned so far, `todo`
still to process, `q`/`r0` the per-server quota and initial remainder. -/
structure MInv (servers : List String) (q r0 : Nat) (roles : List (String × ServerRole))
    (rem done : Nat) (todo : List Nat) : Prop where
  keys : keysA roles = servers
  sum_eq : (roles.map (fun p => p.2.masters.length)).sum = done
  cap : ∀ p ∈ roles, p.2.masters.length ≤ q + 1
  over : (roles.map (fun p => p.2.masters.length - q)).sum + rem = r0
  fresh : ∀ p ∈ roles, ∀ s ∈ p.2.masters, s ∉ todo
  uniq : ∀ p ∈ roles, ∀ p' ∈ roles, ∀ s, s ∈ p.2.masters → s ∈ p'.2.masters → p = p'
  nodupM : ∀ p ∈ roles, p.2.masters.Nodup
  repl : ∀ p ∈ roles, p.2.replicas = []


/-! ### The replica-phase invariant -/

/-- Invariant of the `Replica:` loops.  `M0` freezes the address→masters
projection produced by the master phase: the replica phase never touches any
`masters` set. -/
structure RInv (servers : List String) (M0 : List (String × List Nat)) (q r0 : Nat)
    (roles : List (String × ServerRole)) (rem done : Nat) : Prop where
  keys : keysA roles = servers
  mproj : roles.map (fun p => (p.1, p.2.masters)) = M0
  sum_eq : (roles.map (fun p => p.2.replicas.length)).sum = done
  cap : ∀ p ∈ roles, p.2.replicas.length ≤ q + 1
  over : (roles.map (fun p => p.2.replicas.length - q)).sum + rem = r0
  disj : ∀ p ∈ roles, ∀ s ∈ p.2.replicas, s ∉ p.2.masters
  nodupR : ∀ p ∈ roles, p.2.replicas.Nodup


theorem lookupA_mem {α β : Type} [DecidableEq α] {l : List (α × β)} {a : α} {b : β}
    (h : lookupA l a = some b) : (a, b) ∈ l := by
  induction l with
  | nil => simp [lookupA] at h
  | cons p rest ih =>
    rcases p with ⟨pa, pb⟩
    by_cases hp : pa = a
    · subst hp
      simp [lookupA] at h
      subst h
      exact List.mem_cons_self _ _
    · simp [lookupA, hp] at h
      exact List.mem_cons_of_mem _ (ih h)


theorem mem_lookupA {α β : Type} [DecidableEq α] {l : List (α × β)} {a : α} {b : β}
    (hnd : (keysA l).Nodup) (h : (a, b) ∈ l) : lookupA l a = some b := by
  induction l with
  | nil => simp at h
  | cons p rest ih =>
    rw [keysA, List.map_cons, List.nodup_cons] at hnd
    rcases List.mem_cons.1 h with h | h
    · rw [← h]
      simp [lookupA]
    · have hne : p.1 ≠ a := by
        intro he
        exact hnd.1 (he ▸ List.mem_map_of_mem Prod.fst h)
      simp [lookupA, hne]
      exact ih hnd.2 h


theorem keysA_updateA {α β : Type} [DecidableEq α] (l : List (α × β)) (a : α) (b : β) :
    keysA (updateA l a b) = keysA l := by
  induction l with
  | nil => rfl
  | cons p rest ih =>
    simp only [updateA, keysA, List.map_cons, List.map_map] at *
    by_cases hp : p.1 = a <;> simp [hp] <;> simpa [updateA, keysA] using ih


theorem mem_updateA {α β : Type} [DecidableEq α] {l : List (α × β)} {a : α} {b : β}
    {p : α × β} (h : p ∈ updateA l a b) : p = (a, b) ∨ (p ∈ l ∧ p.1 ≠ a) := by
  induction l with
  | nil => simp [updateA] at h
  | cons q rest ih =>
    simp only [updateA, List.map_cons, List.mem_cons] at h
    rcases h with h | h
    · by_cases hq : q.1 = a
      · simp [hq] at h; left; exact h
      · simp [hq] at h
        right
        subst h
        exact ⟨List.mem_cons_self _ _, hq⟩
    · rcases ih h with h' | h'
      · left; exact h'
      · right; exact ⟨List.mem_cons_of_mem _ h'.1, h'.2⟩


theorem lookupA_updateA_self {α β : Type} [DecidableEq α] {l : List (α × β)} {a : α}
    {b0 : β} (b : β) (h : lookupA l a = some b0) :
    lookupA (updateA l a b) a = some b := by
  induction l with
  | nil => simp [lookupA] at h
  | cons p rest ih =>
    by_cases hp : p.1 = a
    · simp [lookupA, updateA, hp]
    · simp [lookupA, updateA, hp] at h ⊢
      exact ih h


theorem lookupA_updateA_ne {α β : Type} [DecidableEq α] (l : List (α × β)) {a a' : α}
    (b : β) (h : a' ≠ a) : lookupA (updateA l a b) a' = lookupA l a' := by
  induction l with
  | nil => rfl
  | cons p rest ih =>
    rw [updateA, List.map_cons]
    by_cases hp : p.1 = a
    · have hne : a ≠ a' := fun he => h he.symm
      rw [if_pos hp]
      show (if a = a' then some b else lookupA (updateA rest a b) a') = _
      rw [if_neg hne, ih, lookupA]
      have : p.1 ≠ a' := fun he => hne (hp ▸ he)
      rw [if_neg this]
    · rw [if_neg hp]
      show (if p.1 = a' then some p.2 else lookupA (updateA rest a b) a') = _
      rw [lookupA]
      by_cases hp' : p.1 = a'
      · rw [if_pos hp', if_pos hp']
      · rw [if_neg hp', if_neg hp', ih]


/-- Summing a function of the values: an `updateA` at a present key trades the
old value's contribution for the new one's. -/
theorem sum_updateA {α β : Type} [DecidableEq α] {l : List (α × β)} {a : α} {b0 : β}
    (b : β) (f : β → Nat) (hnd : (keysA l).Nodup) (h : lookupA l a = some b0) :
    ((updateA l a b).map (fun p => f p.2)).sum + f b0 =
      (l.map (fun p => f p.2)).sum + f b := by
  induction l with
  | nil => simp [lookupA] at h
  | cons p rest ih =>
    rw [keysA, List.map_cons, List.nodup_cons] at hnd
    by_cases hp : p.1 = a
    · simp [lookupA, hp] at h
      subst h
      have hrest : updateA rest a b = rest := by
        unfold updateA
        conv_rhs => rw [← List.map_id rest]
        apply List.map_congr_left
        intro q hq
        have : q.1 ≠ a := by
          intro he
          exact hnd.1 (hp ▸ he ▸ List.mem_map_of_mem Prod.fst hq)
        simp [this]
      rw [show updateA (p :: rest) a b = (a, b) :: updateA rest a b by
        simp [updateA, hp]]
      rw [hrest]
      simp only [List.map_cons, List.sum_cons]
      omega
    · simp [lookupA, hp] at h
      have hih := ih hnd.2 h
      rw [show updateA (p :: rest) a b = p :: updateA rest a b by
        simp [updateA, hp]]
      simp only [List.map_cons, List.sum_cons]
      omega


theorem nodup_keys_ext {α β : Type} {l : List (α × β)} (hnd : (keysA l).Nodup)
    {p q : α × β} (hp : p ∈ l) (hq : q ∈ l) (h : p.1 = q.1) : p = q := by
  induction l with
  | nil => simp at hp
  | cons r rest ih =>
    rw [keysA, List.map_cons, List.nodup_cons] at hnd
    rcases List.mem_cons.1 hp with hp' | hp' <;> rcases List.mem_cons.1 hq with hq' | hq'
    · rw [hp', hq']
    · exfalso
      apply hnd.1
      rw [← hp', h]
      exact List.mem_map_of_mem Prod.fst hq'
    · exfalso
      apply hnd.1
      rw [← hq', ← h]
      exact List.mem_map_of_mem Prod.fst hp'
    · exact ih hnd.2 hp' hq'


theorem length_filter_ne_of_nodup {l : List Nat} {x : Nat} (hnd : l.Nodup) (hx : x ∈ l) :
    (l.filter (fun y => y ≠ x)).length + 1 = l.length := by
  induction l with
  | nil => simp at hx
  | cons a rest ih =>
    rw [List.nodup_cons] at hnd
    by_cases hax : a = x
    · have hfa : rest.filter (fun y => y ≠ x) = rest := by
        apply List.filter_eq_self.2
        intro b hb
        rw [decide_eq_true_eq]
        intro hbx
        apply hnd.1
        rw [hax, ← hbx]
        exact hb
      simp [List.filter_cons, hax, hfa]
      intro b hb hbx
      apply hnd.1
      rw [hax, ← hbx]
      exact hb
    · have hx' : x ∈ rest := by
        rcases List.mem_cons.1 hx with h | h
        · exact absurd h.symm hax
        · exact h
      have hih := ih hnd.2 hx'
      simp only [List.filter_cons, List.length_cons]
      rw [if_pos (by simpa using hax)]
      simp only [List.length_cons]
      omega


/-! ## Claim theorems -/

/-- C9: a `FilePut` request whose file path begins with `/` returns the
invalid-argument (leading slash) error before any routing or append is
attempted, and a path without a leading slash is never rejected by this
rule. -/
theorem filePut_leading_slash (path : String) (isDir : Bool) (valueLength : Nat) :
    (goHasPrefix path "/" = true →
      filePut path isDir valueLength = Except.error (FilePutError.leadingSlash path)) ∧
    (goHasPrefix path "/" = false →
      filePut path isDir valueLength ≠ Except.error (FilePutError.leadingSlash path)) := by
  constructor
  · intro h
    simp [filePut, h]
  · intro h
    simp only [filePut, h, Bool.false_eq_true, if_false]
    split
    · split <;> simp
    · simp


/-- Witness for C9 at the concrete paths `"/a"` and `"a"`. -/
theorem filePut_leading_slash_witness :
    filePut "/a" false 0 = Except.error (FilePutError.leadingSlash "/a") ∧
    filePut "a" false 0 ≠ Except.error (FilePutError.leadingSlash "a") :=
  ⟨(filePut_leading_slash "/a" false 0).1 (by decide),
   (filePut_leading_slash "a" false 0).2 (by decide)⟩


/-- C8 (code bug): the reconciliation of `Master(shard)` compares remote and
local `CommitInfo` records with `*commitInfo != *localCommitInfo[i]`, which
compares the pointer-typed fields by allocation rather than field by field.
At the failing input below the one local commit is a field-by-field-equal
copy of the remote one held at different allocations, so the claim demands
that the remaining remote commit be pulled — but the code aborts with
"divergent data" and pulls nothing. -/
theorem master_reconcile_pointer_compare :
    (let remoteHead : CommitInfo :=
      ⟨some ⟨1, ⟨some ⟨2, ⟨"r"⟩⟩, "c1"⟩⟩, 1, none, some ⟨3, ⟨5, 0⟩⟩, some ⟨4, ⟨6, 0⟩⟩, 12⟩
     let localHead : CommitInfo :=
      ⟨some ⟨11, ⟨some ⟨12, ⟨"r"⟩⟩, "c1"⟩⟩, 1, none, some ⟨13, ⟨5, 0⟩⟩, some ⟨14, ⟨6, 0⟩⟩, 12⟩
     let remoteTail : CommitInfo :=
      ⟨some ⟨5, ⟨some ⟨6, ⟨"r"⟩⟩, "c2"⟩⟩, 1, none, some ⟨7, ⟨7, 0⟩⟩, some ⟨8, ⟨8, 0⟩⟩, 34⟩
     deepEqCommitInfo remoteHead localHead = true ∧
       reconcileCommits [remoteHead, remoteTail] [localHead] =
         Except.error "divergent data") := by
  constructor
  · decide
  · rfl


/-- C1 (code bug): one `fillRoles` watch iteration with role versions 1, 2
and 3 present (decoded in arbitrary map order) sorts the versions ascending
and truncates to `versions[0:2]`, so it installs and retains the two LOWEST
versions `{1, 2}` — `AddShard` is issued for the roles of versions 1 and 2
and version 3 is the one ignored — where the claim requires the two highest
`{2, 3}`. -/
theorem fillRoles_keeps_two_lowest :
    (fillRolesVersions [3, 1, 2] = [1, 2] ∧ fillRolesVersions [3, 1, 2] ≠ [2, 3]) ∧
    (let decoded : List ServerRole :=
      [⟨"a", 3, [3], []⟩, ⟨"a", 1, [1], []⟩, ⟨"a", 2, [2], []⟩]
     let res := fillRolesStep [] decoded
     res.retained.map Prod.fst = [1, 2] ∧
       res.adds = [(0, 1), (1, 2)] ∧
       ∀ pr ∈ res.adds, pr.1 ≠ 2) := by
  exact ⟨⟨by decide, by decide⟩, ⟨by decide, by decide, by decide⟩⟩


/-- C7 (code bug): `pathToDiff` splits `strings.TrimPrefix(path, diffDir)`,
which keeps the leading `/`, so the components shift by one: for the walked
path of a diff stored by `CreateDiff` under repo `"r"`, commit `"c1"`,
shard `0`, it tries to parse the commit id as the shard number and fails,
and `ListDiff(0)` streams nothing at all (while the claim requires the
stored record to be returned). -/
theorem listDiff_misses_stored_diff :
    (pathToDiff "/pfs/diff" "/pfs/diff/r/c1/0" = none) ∧
    (listDiffSent "/pfs/diff"
        ["/pfs/diff", "/pfs/diff/r", "/pfs/diff/r/c1", "/pfs/diff/r/c1/0"]
        (fun d => if d = ⟨"r", "c1", 0⟩ then some d else none) 0 = some []) := by
  constructor
  · decide
  · decide


theorem lookupA_setA_self {α β : Type} [DecidableEq α] (l : List (α × β)) (a : α) (b : β) :
    lookupA (setA l a b) a = some b := by
  unfold setA
  by_cases h : (lookupA l a).isSome
  · rw [if_pos h]
    rcases Option.isSome_iff_exists.1 h with ⟨b0, hb0⟩
    exact lookupA_updateA_self b hb0
  · rw [if_neg h]
    simp [lookupA]


theorem lookupA_setA_ne {α β : Type} [DecidableEq α] (l : List (α × β)) {a k : α} (b : β)
    (h : k ≠ a) : lookupA (setA l a b) k = lookupA l k := by
  unfold setA
  by_cases hp : (lookupA l a).isSome
  · rw [if_pos hp]
    exact lookupA_updateA_ne l b h
  · rw [if_neg hp]
    show (if a = k then some b else lookupA l k) = lookupA l k
    rw [if_neg (fun he => h he.symm)]


/-- C6 counterexample: running `CreateDiff` over a store whose canonical key
`/pfs/diff/r/c1/0` holds a previous record `[1]`, writing the new record
`[2, 3]`, passes through an observable state in which the key holds the
partial record `[2]` — neither the old nor the new value, because the write
is a direct `WriteFile`, not write-temp-then-rename. -/
theorem createDiff_partial_observable :
    ¬ (∀ st ∈ obsStates [("/pfs/diff/r/c1/0", [1])]
          (createDiffOps "/pfs/diff" "r" "c1" 0 [2, 3]),
        lookupA st "/pfs/diff/r/c1/0" = some [1] ∨
          lookupA st "/pfs/diff/r/c1/0" = some [2, 3]) := by
  decide


/-- C6 as amended: `CreateDiff` persists the record at the key
`{repo}/{commitID}/{shard}` by `MkdirAll` of the parent directory followed by
a direct `WriteFile` of the marshaled bytes — not write-temp-then-rename.  A
run that completes leaves exactly the new record at the canonical key, and no
state of the run touches any other key; but the write is observable
in-flight (and a failed write leaves a truncated record), per the
counterexample. -/
theorem createDiff_direct_write (diffDir repo commitID : String) (shard : Nat)
    (data : List Nat) (σ : List (String × List Nat)) :
    ((obsStates σ (createDiffOps diffDir repo commitID shard data)).getLast? =
      some (setA σ (diffPathOf diffDir repo commitID shard) data)) ∧
    (lookupA (setA σ (diffPathOf diffDir repo commitID shard) data)
      (diffPathOf diffDir repo commitID shard) = some data) ∧
    (∀ st ∈ obsStates σ (createDiffOps diffDir repo commitID shard data),
      ∀ k, k ≠ diffPathOf diffDir repo commitID shard → lookupA st k = lookupA σ k) := by
  have hshape : obsStates σ (createDiffOps diffDir repo commitID shard data) =
      (σ :: σ :: obsWrite σ (diffPathOf diffDir repo commitID shard) data) ++
        [setA σ (diffPathOf diffDir repo commitID shard) data] := by
    simp [createDiffOps, obsStates]
  refine ⟨?_, lookupA_setA_self σ _ data, ?_⟩
  · rw [hshape, List.getLast?_concat]
  · intro st hst k hk
    rw [hshape] at hst
    have hforms : st = σ ∨ ∃ d', st = setA σ (diffPathOf diffDir repo commitID shard) d' := by
      rcases List.mem_append.1 hst with h3 | h
      · rcases List.mem_cons.1 h3 with h | h2
        · left; exact h
        · rcases List.mem_cons.1 h2 with h | h
          · left; exact h
          · unfold obsWrite at h
            rcases List.mem_map.1 h with ⟨kk, _, hkk⟩
            right; exact ⟨data.take kk, hkk.symm⟩
      · right; exact ⟨data, (List.mem_singleton.1 h : _)⟩
    rcases hforms with h | ⟨d', h⟩
    · rw [h]
    · rw [h]
      exact lookupA_setA_ne σ d' hk


/-! Structural lemmas about the chunking loop. -/

theorem putOneBlock_cons (bs : Nat) (t : List Nat) (rest : List (List Nat)) (acc : List Nat) :
    putOneBlock bs (t :: rest) acc =
      if (acc ++ t ++ [10]).length > bs then (acc ++ t ++ [10], rest)
      else putOneBlock bs rest (acc ++ t ++ [10]) := rfl


theorem putOneBlock_decomp (bs : Nat) :
    ∀ (ts : List (List Nat)) (acc : List Nat), ∃ consumed,
      ts = consumed ++ (putOneBlock bs ts acc).2 ∧
      (putOneBlock bs ts acc).1 = acc ++ (consumed.map (fun t => t ++ [10])).flatten ∧
      (ts ≠ [] → consumed ≠ []) := by
  intro ts
  induction ts with
  | nil =>
    intro acc
    exact ⟨[], by simp [putOneBlock]⟩
  | cons t rest ih =>
    intro acc
    rw [putOneBlock_cons]
    by_cases hlen : (acc ++ t ++ [10]).length > bs
    · rw [if_pos hlen]
      refine ⟨[t], by simp, ?_, by simp⟩
      simp [List.append_assoc]
    · rw [if_neg hlen]
      rcases ih (acc ++ t ++ [10]) with ⟨consumed', h1, h2, _⟩
      refine ⟨t :: consumed', ?_, ?_, by simp⟩
      · rw [List.cons_append, ← h1]
      · rw [h2]
        simp [List.append_assoc]


theorem putOneBlock_rest_lt (bs : Nat) :
    ∀ (ts : List (List Nat)) (acc : List Nat), ts ≠ [] →
      ((putOneBlock bs ts acc).2).length < ts.length := by
  intro ts
  induction ts with
  | nil => intro acc h; exact absurd rfl h
  | cons t rest ih =>
    intro acc _
    rw [putOneBlock_cons]
    by_cases hlen : (acc ++ t ++ [10]).length > bs
    · rw [if_pos hlen]
      simp
    · rw [if_neg hlen]
      rcases List.eq_nil_or_concat rest with hr | ⟨_, _, hr⟩
      · subst hr
        simp [putOneBlock]
      · have hne : rest ≠ [] := by rw [hr]; simp
        have := ih (acc ++ t ++ [10]) hne
        simp only [List.length_cons]
        omega


theorem putOneBlock_over_of_rest_ne (bs : Nat) :
    ∀ (ts : List (List Nat)) (acc : List Nat), (putOneBlock bs ts acc).2 ≠ [] →
      bs < (putOneBlock bs ts acc).1.length := by
  intro ts
  induction ts with
  | nil => intro acc h; simp [putOneBlock] at h
  | cons t rest ih =>
    intro acc h
    rw [putOneBlock_cons] at h ⊢
    by_cases hlen : (acc ++ t ++ [10]).length > bs
    · rw [if_pos hlen]
      exact hlen
    · rw [if_neg hlen] at h ⊢
      exact ih _ h


theorem putOneBlock_le (bs M : Nat) :
    ∀ (ts : List (List Nat)) (acc : List Nat), (∀ t ∈ ts, t.length + 1 ≤ M) →
      acc.length ≤ bs → (putOneBlock bs ts acc).1.length ≤ bs + M := by
  intro ts
  induction ts with
  | nil =>
    intro acc _ hacc
    show acc.length ≤ bs + M
    omega
  | cons t rest ih =>
    intro acc hM hacc
    have ht : t.length + 1 ≤ M := hM t (List.mem_cons_self _ _)
    rw [putOneBlock_cons]
    by_cases hlen : (acc ++ t ++ [10]).length > bs
    · rw [if_pos hlen]
      show (acc ++ t ++ [10]).length ≤ bs + M
      simp only [List.length_append, List.length_cons, List.length_nil]
      omega
    · rw [if_neg hlen]
      apply ih _ (fun u hu => hM u (List.mem_cons_of_mem _ hu))
      simp only [List.length_append, List.length_cons, List.length_nil] at hlen ⊢
      omega


theorem putOneBlock_nil_nil {bs : Nat} {c : List Nat} {rest : List (List Nat)}
    (hcr : putOneBlock bs [] [] = (c, rest)) : c = [] ∧ rest = [] := by
  have h : (([] : List Nat), ([] : List (List Nat))) = (c, rest) := hcr
  exact ⟨(Prod.mk.injEq _ _ _ _ ▸ h).1.symm ▸ rfl, (Prod.mk.injEq _ _ _ _ ▸ h).2.symm ▸ rfl⟩


theorem putBlockFuel_congr {bs : Nat} (hbs : 0 < bs) :
    ∀ (n : Nat) (ts : List (List Nat)) (f₁ f₂ : Nat), ts.length ≤ n →
      ts.length < f₁ → ts.length < f₂ → putBlockFuel bs f₁ ts = putBlockFuel bs f₂ ts := by
  intro n
  induction n with
  | zero =>
    intro ts f₁ f₂ hn h1 h2
    have hts : ts = [] := List.length_eq_zero.1 (Nat.le_zero.1 hn)
    subst hts
    rcases f₁ with _ | a
    · omega
    rcases f₂ with _ | b
    · omega
    show putBlockFuel bs (a + 1) [] = putBlockFuel bs (b + 1) []
    have h0 : putOneBlock bs [] [] = (([] : List Nat), ([] : List (List Nat))) := rfl
    simp only [putBlockFuel, h0]
    rw [if_pos (show ([] : List Nat).length < bs from hbs),
      if_pos (show ([] : List Nat).length < bs from hbs)]
  | succ n ih =>
    intro ts f₁ f₂ hn h1 h2
    rcases f₁ with _ | a
    · omega
    rcases f₂ with _ | b
    · omega
    rcases hcr : putOneBlock bs ts [] with ⟨c, rest⟩
    simp only [putBlockFuel, hcr]
    by_cases hc : c.length < bs
    · rw [if_pos hc, if_pos hc]
    · rw [if_neg hc, if_neg hc]
      have hts : ts ≠ [] := by
        intro he
        subst he
        rcases putOneBlock_nil_nil hcr with ⟨hc0, _⟩
        subst hc0
        exact hc hbs
      have hrest : rest.length < ts.length := by
        have := putOneBlock_rest_lt bs ts [] hts
        rw [hcr] at this
        exact this
      rw [ih rest a b (by omega) (by omega) (by omega)]


theorem putBlock_eq_of {bs : Nat} {ts : List (List Nat)} {c : List Nat}
    {rest : List (List Nat)} (hbs : 0 < bs) (hcr : putOneBlock bs ts [] = (c, rest)) :
    putBlock bs ts =
      (if c.length < bs then [⟨c, 0, c.length⟩]
       else ⟨c, 0, c.length⟩ :: putBlock bs rest) := by
  show putBlockFuel bs (ts.length + 1) ts = _
  simp only [putBlockFuel, hcr]
  by_cases hc : c.length < bs
  · rw [if_pos hc, if_pos hc]
  · rw [if_neg hc, if_neg hc]
    have hts : ts ≠ [] := by
      intro he
      subst he
      rcases putOneBlock_nil_nil hcr with ⟨hc0, _⟩
      subst hc0
      exact hc hbs
    have hrest : rest.length < ts.length := by
      have := putOneBlock_rest_lt bs ts [] hts
      rw [hcr] at this
      exact this
    show _ :: putBlockFuel bs ts.length rest = _ :: putBlockFuel bs (rest.length + 1) rest
    rw [putBlockFuel_congr hbs ts.length rest ts.length (rest.length + 1)
      (by omega) (by omega) (by omega)]


theorem putBlock_nil {bs : Nat} (hbs : 0 < bs) : putBlock bs [] = [⟨[], 0, 0⟩] := by
  rw [putBlock_eq_of hbs (show putOneBlock bs [] [] = ([], []) from rfl)]
  rw [if_pos (show ([] : List Nat).length < bs from hbs)]
  rfl


theorem ends_newline :
    ∀ ts : List (List Nat), ts ≠ [] →
      ((ts.map (fun t => t ++ [10])).flatten).getLast? = some 10 := by
  intro ts
  induction ts with
  | nil => intro h; exact absurd rfl h
  | cons t rest ih =>
    intro _
    rcases List.eq_nil_or_concat rest with hr | ⟨_, _, hr⟩
    · subst hr
      simp [List.getLast?_concat]
    · have hne : rest ≠ [] := by rw [hr]; simp
      have hjoin : ((rest.map (fun t => t ++ [10])).flatten) ≠ [] := by
        rcases rest with _ | ⟨u, urest⟩
        · exact absurd rfl hne
        · simp
      rw [List.map_cons, List.flatten_cons, List.getLast?_append, ih hne]
      rfl


theorem putBlock_shape {bs : Nat} (hbs : 0 < bs) :
    ∀ (n : Nat) (ts : List (List Nat)), ts.length ≤ n →
      ∃ refs' r, putBlock bs ts = refs' ++ [r] ∧ r.lower = 0 ∧
        r.upper = r.block.length ∧ r.upper < bs ∧
        ∀ q ∈ refs', q.lower = 0 ∧ q.upper = q.block.length ∧ bs ≤ q.upper := by
  intro n
  induction n with
  | zero =>
    intro ts hn
    have hts : ts = [] := List.length_eq_zero.1 (Nat.le_zero.1 hn)
    subst hts
    exact ⟨[], ⟨[], 0, 0⟩, by rw [putBlock_nil hbs]; rfl, rfl, rfl, hbs, by simp⟩
  | succ n ih =>
    intro ts hn
    rcases hcr : putOneBlock bs ts [] with ⟨c, rest⟩
    rw [putBlock_eq_of hbs hcr]
    by_cases hc : c.length < bs
    · exact ⟨[], ⟨c, 0, c.length⟩, by rw [if_pos hc]; rfl, rfl, rfl, hc, by simp⟩
    · rw [if_neg hc]
      have hts : ts ≠ [] := by
        intro he
        subst he
        rcases putOneBlock_nil_nil hcr with ⟨hc0, _⟩
        subst hc0
        exact hc hbs
      have hrest : rest.length ≤ n := by
        have hlt : rest.length < ts.length := by
          have h' := putOneBlock_rest_lt bs ts [] hts
          rw [hcr] at h'
          exact h'
        omega
      rcases ih rest hrest with ⟨refs', r, hput, hr0, hrlen, hrlt, hall⟩
      refine ⟨⟨c, 0, c.length⟩ :: refs', r, ?_, hr0, hrlen, hrlt, ?_⟩
      · rw [hput]
        rfl
      · intro q hq
        rcases List.mem_cons.1 hq with hq | hq
        · subst hq
          exact ⟨rfl, rfl, Nat.le_of_not_lt hc⟩
        · exact hall q hq


theorem putBlock_flatten {bs : Nat} (hbs : 0 < bs) :
    ∀ (n : Nat) (ts : List (List Nat)), ts.length ≤ n →
      ((putBlock bs ts).map BlockRef.block).flatten =
        (ts.map (fun t => t ++ [10])).flatten := by
  intro n
  induction n with
  | zero =>
    intro ts hn
    have hts : ts = [] := List.length_eq_zero.1 (Nat.le_zero.1 hn)
    subst hts
    rw [putBlock_nil hbs]
    rfl
  | succ n ih =>
    intro ts hn
    rcases hcr : putOneBlock bs ts [] with ⟨c, rest⟩
    rcases putOneBlock_decomp bs ts [] with ⟨consumed, hsplit, hcontent, _⟩
    rw [hcr] at hsplit hcontent
    simp only [List.nil_append] at hcontent
    rw [putBlock_eq_of hbs hcr]
    by_cases hc : c.length < bs
    · rw [if_pos hc]
      have hrest : rest = [] := by
        by_contra hne
        have hgt : bs < c.length := by
          have h' := putOneBlock_over_of_rest_ne bs ts [] (by rw [hcr]; exact hne)
          rw [hcr] at h'
          exact h'
        omega
      subst hrest
      rw [hsplit]
      simp [hcontent]
    · rw [if_neg hc]
      have hts : ts ≠ [] := by
        intro he
        subst he
        rcases putOneBlock_nil_nil hcr with ⟨hc0, _⟩
        subst hc0
        exact hc hbs
      have hrest : rest.length ≤ n := by
        have hlt : rest.length < ts.length := by
          have h' := putOneBlock_rest_lt bs ts [] hts
          rw [hcr] at h'
          exact h'
        omega
      rw [hsplit]
      simp only [List.map_cons, List.flatten_cons, List.map_append, List.flatten_append]
      rw [hcontent, ih rest hrest]


theorem putBlock_chunk_facts {bs M : Nat} (hbs : 0 < bs) :
    ∀ (n : Nat) (ts : List (List Nat)), ts.length ≤ n →
      (∀ t ∈ ts, t.length + 1 ≤ M) →
      ∀ r ∈ putBlock bs ts, r.lower = 0 ∧ r.upper = r.block.length ∧
        (r.block = [] ∨ r.block.getLast? = some 10) ∧ r.block.length ≤ bs + M := by
  intro n
  induction n with
  | zero =>
    intro ts hn _ r hr
    have hts : ts = [] := List.length_eq_zero.1 (Nat.le_zero.1 hn)
    subst hts
    rw [putBlock_nil hbs] at hr
    rcases List.mem_singleton.1 hr with hr
    subst hr
    refine ⟨rfl, rfl, Or.inl rfl, by simp⟩
  | succ n ih =>
    intro ts hn hM r hr
    rcases hcr : putOneBlock bs ts [] with ⟨c, rest⟩
    rcases putOneBlock_decomp bs ts [] with ⟨consumed, hsplit, hcontent, _⟩
    rw [hcr] at hsplit hcontent
    simp only [List.nil_append] at hcontent
    have hcfacts : c = [] ∨ c.getLast? = some 10 := by
      rcases List.eq_nil_or_concat consumed with hcon | ⟨_, _, hcon⟩
      · left
        rw [hcontent, hcon]
        rfl
      · right
        rw [hcontent]
        apply ends_newline
        rw [hcon]
        simp
    have hclen : c.length ≤ bs + M := by
      have := putOneBlock_le bs M ts [] hM (by simp)
      rw [hcr] at this
      exact this
    rw [putBlock_eq_of hbs hcr] at hr
    by_cases hc : c.length < bs
    · rw [if_pos hc] at hr
      rcases List.mem_singleton.1 hr with hr
      subst hr
      exact ⟨rfl, rfl, hcfacts, hclen⟩
    · rw [if_neg hc] at hr
      rcases List.mem_cons.1 hr with hr | hr
      · subst hr
        exact ⟨rfl, rfl, hcfacts, hclen⟩
      · have hts : ts ≠ [] := by
          intro he
          subst he
          rcases putOneBlock_nil_nil hcr with ⟨hc0, _⟩
          subst hc0
          exact hc hbs
        have hrest : rest.length ≤ n := by
          have hlt : rest.length < ts.length := by
            have h' := putOneBlock_rest_lt bs ts [] hts
            rw [hcr] at h'
            exact h'
          omega
        have hMrest : ∀ t ∈ rest, t.length + 1 ≤ M := by
          intro t ht
          apply hM
          rw [hsplit]
          exact List.mem_append_right _ ht
        exact ih rest hrest hMrest r hr


/-! Evaluation lemmas for the repeated-line inputs used as concrete
inputs below (the kernel cannot brute-force an 8 MiB stream, so these
compute the chunker symbolically). -/

theorem splitLinesAux_repl :
    ∀ k : Nat, splitLinesAux ((List.replicate k ([97] ++ [10])).flatten) [] =
      List.replicate k [97] ++ [[]] := by
  intro k
  induction k with
  | zero => rfl
  | succ k ih =>
    rw [List.replicate_succ, List.flatten_cons]
    show splitLinesAux ([97] ++ [10] ++ (List.replicate k ([97] ++ [10])).flatten) [] = _
    rw [show ([97] ++ [10] ++ (List.replicate k ([97] ++ [10])).flatten) =
      97 :: 10 :: (List.replicate k ([97] ++ [10])).flatten from rfl]
    rw [splitLinesAux, if_neg (by omega), splitLinesAux, if_pos rfl, ih]
    rfl


theorem scanLines_repl :
    ∀ k : Nat, scanLines ((List.replicate k ([97] ++ [10])).flatten) =
      List.replicate k [97] := by
  intro k
  unfold scanLines
  rw [splitLinesAux_repl]
  have hlast : (List.replicate k [97] ++ [[]]).getLast? = some ([] : List Nat) := by
    rw [List.getLast?_append]
    rfl
  have hdrop : (List.replicate k [97] ++ [[]]).dropLast = List.replicate k [97] := by
    simp
  rw [if_pos hlast, hdrop, List.map_replicate]
  rfl


theorem flatten_repl_two_len :
    ∀ k : Nat, ((List.replicate k ([97] ++ [10])).flatten).length = 2 * k := by
  intro k
  induction k with
  | zero => rfl
  | succ k ih =>
    rw [List.replicate_succ, List.flatten_cons, List.length_append, ih]
    simp only [List.length_append, List.length_cons, List.length_nil]
    omega


theorem putOneBlock_repl (bs : Nat) :
    ∀ (k : Nat) (acc : List Nat), 1 ≤ k → acc.length + 2 * k ≤ bs + 2 →
      putOneBlock bs (List.replicate k [97]) acc =
        (acc ++ (List.replicate k ([97] ++ [10])).flatten, []) := by
  intro k
  induction k with
  | zero => intro acc h; omega
  | succ k ih =>
    intro acc _ hle
    rw [List.replicate_succ, putOneBlock_cons]
    rcases Nat.eq_zero_or_pos k with hk | hk
    · subst hk
      by_cases hover : (acc ++ [97] ++ [10]).length > bs
      · rw [if_pos hover]
        simp [List.append_assoc]
      · rw [if_neg hover]
        show (acc ++ [97] ++ [10], ([] : List (List Nat))) = _
        simp [List.append_assoc]
    · have hnot : ¬ (acc ++ [97] ++ [10]).length > bs := by
        simp only [List.length_append, List.length_cons, List.length_nil]
        omega
      rw [if_neg hnot, ih (acc ++ [97] ++ [10]) hk
        (by simp only [List.length_append, List.length_cons, List.length_nil]; omega)]
      rw [List.replicate_succ, List.flatten_cons]
      simp [List.append_assoc]


/-- C4 counterexample: for the input stream of 4194305 lines `"a\n"`
(8388610 bytes, every line far below the scanner's token cap), the first
chunk `PutBlock` produces has range `[0, 8388610)` — it exceeds `BlockSize`
(8388608), because the scan loop writes the overflowing line, newline
included, into the current block before checking the size.  This refutes
both "chunks each of size at most BlockSize" and "the newline terminating a
line that would overflow the current block is placed in the next block". -/
theorem putBlock_oversize_counterexample :
    ∃ r ∈ putBlock blockSize (scanLines ((List.replicate 4194305 ([97] ++ [10])).flatten)),
      blockSize < r.upper - r.lower := by
  have hbs : 0 < blockSize := by norm_num [blockSize]
  rw [scanLines_repl]
  have hone : putOneBlock blockSize (List.replicate 4194305 [97]) [] =
      ((List.replicate 4194305 ([97] ++ [10])).flatten, []) := by
    have h := putOneBlock_repl blockSize 4194305 [] (by norm_num)
      (by norm_num [blockSize])
    rw [List.nil_append] at h
    exact h
  have hlen : ((List.replicate 4194305 ([97] ++ [10])).flatten).length = 8388610 := by
    rw [flatten_repl_two_len]
  rw [putBlock_eq_of hbs hone, hlen, if_neg (by norm_num [blockSize])]
  refine ⟨⟨(List.replicate 4194305 ([97] ++ [10])).flatten, 0, 8388610⟩,
    List.mem_cons_self _ _, ?_⟩
  show blockSize < 8388610 - 0
  norm_num [blockSize]


/-- C4 as amended: for every input stream whose lines fit the scanner's
64 KiB token cap, `PutBlock` splits the input into chunks on newline
boundaries — the concatenation of the chunks is exactly the input lines each
terminated by a newline, every nonempty chunk ends at a newline (the
overflowing line and its terminating newline stay in the current chunk), and
every returned `BlockRef` has range `[0, actualSize)` — but a chunk's size is
bounded only by `BlockSize` plus the longest line (at most
`BlockSize + 64 KiB`), not by `BlockSize` itself. -/
theorem putBlock_newline_chunks (input : List Nat)
    (hM : ∀ t ∈ scanLines input, t.length + 1 ≤ 64 * 1024) :
    (((putBlock blockSize (scanLines input)).map BlockRef.block).flatten =
      ((scanLines input).map (fun t => t ++ [10])).flatten) ∧
    (∀ r ∈ putBlock blockSize (scanLines input),
      r.lower = 0 ∧ r.upper = r.block.length ∧
      (r.block = [] ∨ r.block.getLast? = some 10) ∧
      r.block.length ≤ blockSize + 64 * 1024) := by
  have hbs : 0 < blockSize := by norm_num [blockSize]
  exact ⟨putBlock_flatten hbs (scanLines input).length (scanLines input) le_rfl,
    putBlock_chunk_facts hbs (scanLines input).length (scanLines input) le_rfl hM⟩


/-- Witness for C4's amended theorem at the one-byte input `"a"`. -/
theorem putBlock_newline_chunks_witness :
    (((putBlock blockSize (scanLines [97])).map BlockRef.block).flatten =
      ((scanLines [97]).map (fun t => t ++ [10])).flatten) ∧
    (∀ r ∈ putBlock blockSize (scanLines [97]),
      r.lower = 0 ∧ r.upper = r.block.length ∧
      (r.block = [] ∨ r.block.getLast? = some 10) ∧
      r.block.length ≤ blockSize + 64 * 1024) :=
  putBlock_newline_chunks [97] (by decide)


/-- C10: the `PutBlock` loop stops exactly when `putOneBlock` yields a chunk
strictly shorter than `blockSize`: an empty input yields exactly one empty
`BlockRef` `[0, 0)`; the returned list always ends with a `BlockRef` of
length `< blockSize` preceded only by chunks of length `≥ blockSize`; and
when the scanner is exhausted by a chunk that reached `blockSize` (so the
running size never stayed strictly below it), one additional terminal
`BlockRef` with range `[0, 0)` — the digest of the empty input — is
appended. -/
theorem putBlock_terminal_block :
    (putBlock blockSize (scanLines []) = [⟨[], 0, 0⟩]) ∧
    (∀ input, ∃ refs' r, putBlock blockSize (scanLines input) = refs' ++ [r] ∧
      r.lower = 0 ∧ r.upper - r.lower < blockSize ∧
      ∀ q ∈ refs', blockSize ≤ q.upper - q.lower) ∧
    (∀ input c, putOneBlock blockSize (scanLines input) [] = (c, []) →
      ¬ c.length < blockSize →
      putBlock blockSize (scanLines input) = [⟨c, 0, c.length⟩, ⟨[], 0, 0⟩]) := by
  have hbs : 0 < blockSize := by norm_num [blockSize]
  refine ⟨?_, ?_, ?_⟩
  · rw [show scanLines [] = [] from rfl]
    exact putBlock_nil hbs
  · intro input
    rcases putBlock_shape hbs (scanLines input).length (scanLines input) le_rfl with
      ⟨refs', r, hput, hr0, hrlen, hrlt, hall⟩
    refine ⟨refs', r, hput, hr0, by omega, ?_⟩
    intro q hq
    rcases hall q hq with ⟨hq0, _, hqge⟩
    omega
  · intro input c hone hc
    rw [putBlock_eq_of hbs hone, if_neg hc, putBlock_nil hbs]


/-- Witness for C10 at the 8388610-byte input of 4194305 `"a\n"` lines: the
scanner is exhausted at a chunk of size `blockSize + 2`, and the returned
list carries the additional terminal empty `BlockRef`. -/
theorem putBlock_terminal_block_witness :
    putBlock blockSize (scanLines ((List.replicate 4194305 ([97] ++ [10])).flatten)) =
      [⟨(List.replicate 4194305 ([97] ++ [10])).flatten, 0,
        ((List.replicate 4194305 ([97] ++ [10])).flatten).length⟩, ⟨[], 0, 0⟩] := by
  apply putBlock_terminal_block.2.2
  · rw [scanLines_repl]
    have h := putOneBlock_repl blockSize 4194305 [] (by norm_num)
      (by norm_num [blockSize])
    rw [List.nil_append] at h
    exact h
  · rw [flatten_repl_two_len]
    norm_num [blockSize]


/-- C5 counterexample: a `putOneBlock` call in which the scanner fails
before any `BlockRef` is produced (here: it errors immediately, yielding no
tokens) closes the temporary file and returns — the temporary file is kept,
not removed. -/
theorem putOneBlock_error_keeps_tmp :
    putOneBlockFate blockSize [] true false = TmpFate.kept ∧
    putOneBlockFate blockSize [] true false ≠ TmpFate.removed := by
  constructor
  · rfl
  · decide


/-- C5 as amended: on a scan (or write) error `putOneBlock` produces no
`BlockRef` and its deferred cleanup leaves the temporary file in place; only
a call that produces a `BlockRef` disposes of the temporary — removing it
when the block already exists and renaming it into the canonical block path
otherwise. -/
theorem putOneBlock_tmp_disposition (tokens : List (List Nat)) (blockExists : Bool) :
    (∀ scanErr, putOneBlockResult blockSize tokens scanErr = none →
      putOneBlockFate blockSize tokens scanErr blockExists = TmpFate.kept) ∧
    (∀ scanErr ref, putOneBlockResult blockSize tokens scanErr = some ref →
      putOneBlockFate blockSize tokens scanErr blockExists =
        (if blockExists then TmpFate.removed else TmpFate.renamed)) := by
  constructor
  · intro scanErr h
    simp [putOneBlockFate, h, putOneBlockCleanup]
  · intro scanErr ref h
    simp [putOneBlockFate, h, putOneBlockCleanup]


/-- Witness for C5's amended theorem: error and success runs on concrete
inputs. -/
theorem putOneBlock_tmp_disposition_witness :
    putOneBlockFate blockSize [] true true = TmpFate.kept ∧
    putOneBlockFate blockSize [[97]] false true = TmpFate.removed ∧
    putOneBlockFate blockSize [[97]] false false = TmpFate.renamed :=
  ⟨(putOneBlock_tmp_disposition [] true).1 true rfl,
   (putOneBlock_tmp_disposition [[97]] true).2 false ⟨[97, 10], 0, 2⟩ rfl,
   (putOneBlock_tmp_disposition [[97]] false).2 false ⟨[97, 10], 0, 2⟩ rfl⟩


/-! ### Counting lemmas for the balanced-assignment proof (C2) -/

theorem sum_min_add_over (q : Nat) :
    ∀ cs : List Nat, cs.sum = (cs.map (fun c => min c q)).sum + (cs.map (fun c => c - q)).sum := by
  intro cs
  induction cs with
  | nil => rfl
  | cons c rest ih =>
    simp only [List.map_cons, List.sum_cons]
    have : c = min c q + (c - q) := by omega
    omega


theorem sum_le_card_mul (q : Nat) :
    ∀ cs : List Nat, (∀ c ∈ cs, c ≤ q) → cs.sum ≤ cs.length * q := by
  intro cs
  induction cs with
  | nil => simp
  | cons c rest ih =>
    intro h
    have hc : c ≤ q := h c (List.mem_cons_self _ _)
    have ht := ih (fun x hx => h x (List.mem_cons_of_mem _ hx))
    simp only [List.sum_cons, List.length_cons]
    have : (rest.length + 1) * q = rest.length * q + q := by ring
    omega


theorem all_eq_of_sum_eq (q : Nat) :
    ∀ cs : List Nat, (∀ c ∈ cs, c ≤ q) → cs.sum = cs.length * q → ∀ c ∈ cs, c = q := by
  intro cs
  induction cs with
  | nil => intro _ _ c hc; simp at hc
  | cons a rest ih =>
    intro hle hsum c hc
    have ha : a ≤ q := hle a (List.mem_cons_self _ _)
    have hrle : ∀ x ∈ rest, x ≤ q := fun x hx => hle x (List.mem_cons_of_mem _ hx)
    have hrb := sum_le_card_mul q rest hrle
    simp only [List.sum_cons, List.length_cons] at hsum
    have hmul : (rest.length + 1) * q = rest.length * q + q := by ring
    have haq : a = q := by omega
    have hrsum : rest.sum = rest.length * q := by omega
    rcases List.mem_cons.1 hc with hc | hc
    · rw [hc, haq]
    · exact ih hrle hrsum c hc


/-- The pigeonhole core of (P4): if the counts sum to `len * q + r`, each is
at most `q + 1`, and the overflow above `q` plus the unspent remainder equals
`r`, then every count is `q` or `q + 1`, and exactly `q` when `r = 0`. -/
theorem counts_balanced {cs : List Nat} {q r rem : Nat}
    (hsum : cs.sum = cs.length * q + r)
    (hcap : ∀ c ∈ cs, c ≤ q + 1)
    (hover : (cs.map (fun c => c - q)).sum + rem = r) :
    ∀ c ∈ cs, (c = q ∨ c = q + 1) ∧ (r = 0 → c = q) := by
  have hdecomp := sum_min_add_over q cs
  have hminle : ∀ x ∈ cs.map (fun c => min c q), x ≤ q := by
    intro x hx
    rcases List.mem_map.1 hx with ⟨c, _, hc⟩
    omega
  have hminbound := sum_le_card_mul q (cs.map (fun c => min c q)) hminle
  rw [List.length_map] at hminbound
  have hminsum : (cs.map (fun c => min c q)).sum = cs.length * q := by omega
  have hallmin := all_eq_of_sum_eq q (cs.map (fun c => min c q)) hminle
    (by rw [List.length_map]; exact hminsum)
  intro c hc
  have hge : min c q = q := hallmin _ (List.mem_map_of_mem _ hc)
  have hcge : q ≤ c := by omega
  have hcle : c ≤ q + 1 := hcap c hc
  refine ⟨by omega, ?_⟩
  intro hr0
  subst hr0
  have hoz : (cs.map (fun c => c - q)).sum = 0 := by omega
  have : c - q = 0 := by
    have hmem : (c - q) ∈ cs.map (fun c => c - q) := List.mem_map_of_mem _ hc
    rcases List.sum_eq_zero_iff.1 hoz _ hmem with h
    exact h
  omega


/-- `⌈N / K⌉` as `(N + K - 1) / K`, split by whether `K` divides `N`. -/
theorem ceilDiv_cases {N K : Nat} (hK : 0 < K) :
    (N + K - 1) / K = N / K + (if N % K = 0 then 0 else 1) := by
  rcases Nat.eq_zero_or_pos (N % K) with hr | hr
  · rw [if_pos hr]
    have hdm := Nat.div_add_mod N K
    have hN : N = K * (N / K) := by omega
    have : N + K - 1 = (K - 1) + (N / K) * K := by
      rw [Nat.mul_comm] at hN
      omega
    rw [this, Nat.add_mul_div_right _ _ hK, Nat.div_eq_of_lt (by omega)]
    omega
  · rw [if_neg (by omega)]
    have hdm := Nat.div_add_mod N K
    have hlt := Nat.mod_lt N hK
    have : N + K - 1 = (N % K - 1) + (N / K + 1) * K := by
      have h1 : (N / K + 1) * K = (N / K) * K + K := by ring
      have h2 : N = K * (N / K) + N % K := by omega
      rw [Nat.mul_comm] at h2
      omega
    rw [this, Nat.add_mul_div_right _ _ hK, Nat.div_eq_of_lt (by omega)]
    omega


/-! ### Characterizations of the assignment primitives -/

theorem insertShard_not_mem {l : List Nat} {s : Nat} (h : s ∉ l) :
    insertShard l s = s :: l := if_neg h


theorem updateA_not_mem {α β : Type} [DecidableEq α] {l : List (α × β)} {a : α} {b : β}
    (h : ∀ p ∈ l, p.1 ≠ a) : updateA l a b = l := by
  unfold updateA
  conv_rhs => rw [← List.map_id l]
  apply List.map_congr_left
  intro q hq
  simp [h q hq]


/-- An `updateA` that does not change the `masters` field leaves the
masters projection of the table unchanged. -/
theorem projM_updateA {roles : List (String × ServerRole)} {address : String}
    (r r' : ServerRole) (hk : (keysA roles).Nodup)
    (hl : lookupA roles address = some r) (hm : r'.masters = r.masters) :
    (updateA roles address r').map (fun p => (p.1, p.2.masters)) =
      roles.map (fun p => (p.1, p.2.masters)) := by
  induction roles with
  | nil => rfl
  | cons p rest ih =>
    rw [keysA, List.map_cons, List.nodup_cons] at hk
    by_cases hp : p.1 = address
    · simp [lookupA, hp] at hl
      have hrest : updateA rest address r' = rest := by
        apply updateA_not_mem
        intro q hq he
        exact hk.1 (hp ▸ he ▸ List.mem_map_of_mem Prod.fst hq)
      rw [show updateA (p :: rest) address r' = (address, r') :: updateA rest address r' by
        simp [updateA, hp]]
      rw [hrest]
      simp only [List.map_cons]
      rw [hm, hl, hp]
    · rw [show updateA (p :: rest) address r' = p :: updateA rest address r' by
        simp [updateA, hp]]
      simp only [List.map_cons]
      rw [ih hk.2 (by simpa [lookupA, hp] using hl)]


theorem assignMaster_eq_some {serverRoles : List (String × ServerRole)}
    {masters : List (Nat × String)} {address : String} {shard per rem : Nat}
    {out : List (String × ServerRole) × List (Nat × String) × Nat}
    (h : assignMaster serverRoles masters address shard per rem = some out) :
    ∃ serverRole, lookupA serverRoles address = some serverRole ∧
      serverRole.masters.length ≤ per ∧
      (serverRole.masters.length = per → 0 < rem) ∧
      shard ∉ serverRole.masters ∧ shard ∉ serverRole.replicas ∧
      out.1 = updateA serverRoles address
        { serverRole with masters := shard :: serverRole.masters } ∧
      out.2.2 = (if serverRole.masters.length = per ∧ 0 < rem then rem - 1 else rem) := by
  unfold assignMaster at h
  split at h
  · exact absurd h (by simp)
  next serverRole hl =>
    split at h
    · exact absurd h (by simp)
    next h1 =>
      split at h
      · exact absurd h (by simp)
      next h2 =>
        split at h
        · exact absurd h (by simp)
        next h3 =>
          have hnm : shard ∉ serverRole.masters := fun hmem => h3 (Or.inl hmem)
          have hnr : shard ∉ serverRole.replicas := fun hmem => h3 (Or.inr hmem)
          injection h with h
          subst h
          refine ⟨serverRole, hl, by omega, by omega, hnm, hnr, ?_, rfl⟩
          rw [insertShard_not_mem hnm]


theorem assignReplica_eq_some {serverRoles : List (String × ServerRole)}
    {masters : List (Nat × String)} {replicas : List (Nat × List String)}
    {address : String} {shard per rem : Nat}
    {out : List (String × ServerRole) × List (Nat × List String) × Nat}
    (h : assignReplica serverRoles masters replicas address shard per rem = some out) :
    ∃ serverRole, lookupA serverRoles address = some serverRole ∧
      serverRole.replicas.length ≤ per ∧
      (serverRole.replicas.length = per → 0 < rem) ∧
      shard ∉ serverRole.masters ∧ shard ∉ serverRole.replicas ∧
      out.1 = updateA serverRoles address
        { serverRole with replicas := shard :: serverRole.replicas } ∧
      out.2.2 = (if serverRole.replicas.length = per ∧ 0 < rem then rem - 1 else rem) := by
  unfold assignReplica at h
  split at h
  · exact absurd h (by simp)
  next serverRole hl =>
    split at h
    · exact absurd h (by simp)
    next h1 =>
      split at h
      · exact absurd h (by simp)
      next h2 =>
        split at h
        · exact absurd h (by simp)
        next h3 =>
          have hnm : shard ∉ serverRole.masters := fun hmem => h3 (Or.inl hmem)
          have hnr : shard ∉ serverRole.replicas := fun hmem => h3 (Or.inr hmem)
          injection h with h
          subst h
          refine ⟨serverRole, hl, by omega, by omega, hnm, hnr, ?_, rfl⟩
          rw [insertShard_not_mem hnr]


/-- The success of `assignReplica` under known-good preconditions, with the
resulting state made explicit (used to run the two calls inside
`swapReplica`). -/
theorem assignReplica_succeeds {serverRoles : List (String × ServerRole)}
    (masters : List (Nat × String)) (replicas : List (Nat × List String))
    {address : String} (shard : Nat) {per rem : Nat} {serverRole : ServerRole}
    (hl : lookupA serverRoles address = some serverRole)
    (h1 : ¬ serverRole.replicas.length > per)
    (h2 : ¬ (serverRole.replicas.length = per ∧ rem = 0))
    (h3 : ¬ hasShard serverRole shard) :
    assignReplica serverRoles masters replicas address shard per rem =
      some (updateA serverRoles address
          { serverRole with replicas := shard :: serverRole.replicas },
        setA replicas shard (((lookupA replicas shard).getD []) ++ [address]),
        if serverRole.replicas.length = per ∧ rem > 0 then rem - 1 else rem) := by
  simp only [assignReplica, hl]
  rw [if_neg h1, if_neg h2, if_neg h3,
    insertShard_not_mem (fun hmem => h3 (Or.inr hmem))]


theorem tryAssignMaster_some {serverRoles : List (String × ServerRole)}
    {masters : List (Nat × String)} {rem shard per : Nat}
    {out : List (String × ServerRole) × List (Nat × String) × Nat} :
    ∀ {cands : List String},
      tryAssignMaster serverRoles masters rem shard per cands = some out →
      ∃ address, assignMaster serverRoles masters address shard per rem = some out := by
  intro cands
  induction cands with
  | nil => intro h; exact absurd h (by simp [tryAssignMaster])
  | cons address rest ih =>
    intro h
    unfold tryAssignMaster at h
    rcases ha : assignMaster serverRoles masters address shard per rem with _ | res
    · rw [ha] at h
      exact ih h
    · rw [ha] at h
      injection h with h
      exact ⟨address, h ▸ ha⟩


theorem tryAssignReplica_some {serverRoles : List (String × ServerRole)}
    {masters : List (Nat × String)} {replicas : List (Nat × List String)}
    {rem shard per : Nat}
    {out : List (String × ServerRole) × List (Nat × List String) × Nat} :
    ∀ {cands : List String},
      tryAssignReplica serverRoles masters replicas rem shard per cands = some out →
      ∃ address, assignReplica serverRoles masters replicas address shard per rem = some out := by
  intro cands
  induction cands with
  | nil => intro h; exact absurd h (by simp [tryAssignReplica])
  | cons address rest ih =>
    intro h
    unfold tryAssignReplica at h
    rcases ha : assignReplica serverRoles masters replicas address shard per rem with _ | res
    · rw [ha] at h
      exact ih h
    · rw [ha] at h
      injection h with h
      exact ⟨address, h ▸ ha⟩


theorem trySwap_some {serverRoles : List (String × ServerRole)}
    {masters : List (Nat × String)} {replicas : List (Nat × List String)}
    {shard per : Nat} {out : List (String × ServerRole) × List (Nat × List String)} :
    ∀ {servers : List String},
      trySwap serverRoles masters replicas shard per servers = some out →
      ∃ address, swapReplica serverRoles masters replicas address shard per = some out := by
  intro servers
  induction servers with
  | nil => intro h; exact absurd h (by simp [trySwap])
  | cons address rest ih =>
    intro h
    unfold trySwap at h
    rcases ha : swapReplica serverRoles masters replicas address shard per with _ | res
    · rw [ha] at h
      exact ih h
    · rw [ha] at h
      injection h with h
      exact ⟨address, h ▸ ha⟩


theorem swapInner_some {serverRoles : List (String × ServerRole)}
    {masters : List (Nat × String)} {replicas : List (Nat × List String)}
    {serverRole : ServerRole} {address : String} {shard per : Nat} {swapID : String}
    {swapServerRole : ServerRole}
    {out : List (String × ServerRole) × List (Nat × List String)} :
    ∀ {lst : List Nat},
      swapInner serverRoles masters replicas serverRole address shard per swapID
        swapServerRole lst = some out →
      ∃ swapShard ∈ lst, ¬ hasShard serverRole swapShard ∧
        ¬ hasShard swapServerRole shard ∧
        out = swapApply serverRoles masters replicas address shard per swapID
          swapServerRole swapShard := by
  intro lst
  induction lst with
  | nil => intro h; exact absurd h (by simp [swapInner])
  | cons swapShard rest ih =>
    intro h
    unfold swapInner at h
    by_cases h1 : hasShard serverRole swapShard
    · rw [if_pos h1] at h
      rcases ih h with ⟨s, hs, hrest⟩
      exact ⟨s, List.mem_cons_of_mem _ hs, hrest⟩
    rw [if_neg h1] at h
    by_cases h2 : hasShard swapServerRole shard
    · rw [if_pos h2] at h
      rcases ih h with ⟨s, hs, hrest⟩
      exact ⟨s, List.mem_cons_of_mem _ hs, hrest⟩
    rw [if_neg h2] at h
    injection h with h
    exact ⟨swapShard, List.mem_cons_self _ _, h1, h2, h.symm⟩


theorem swapOuter_some {serverRoles : List (String × ServerRole)}
    {masters : List (Nat × String)} {replicas : List (Nat × List String)}
    {serverRole : ServerRole} {address : String} {shard per : Nat}
    {out : List (String × ServerRole) × List (Nat × List String)} :
    ∀ {iter : List (String × ServerRole)},
      swapOuter serverRoles masters replicas serverRole address shard per iter = some out →
      ∃ swapID swapServerRole, (swapID, swapServerRole) ∈ iter ∧ swapID ≠ address ∧
        swapInner serverRoles masters replicas serverRole address shard per swapID
          swapServerRole swapServerRole.replicas = some out := by
  intro iter
  induction iter with
  | nil => intro h; exact absurd h (by simp [swapOuter])
  | cons p rest ih =>
    intro h
    rcases p with ⟨swapID, swapServerRole⟩
    unfold swapOuter at h
    by_cases he : swapID = address
    · rw [if_pos he] at h
      rcases ih h with ⟨i, r, hm, hrest⟩
      exact ⟨i, r, List.mem_cons_of_mem _ hm, hrest⟩
    rw [if_neg he] at h
    rcases hi : swapInner serverRoles masters replicas serverRole address shard per swapID
        swapServerRole swapServerRole.replicas with _ | res
    · rw [hi] at h
      rcases ih h with ⟨i, r, hm, hrest⟩
      exact ⟨i, r, List.mem_cons_of_mem _ hm, hrest⟩
    · rw [hi] at h
      injection h with h
      exact ⟨swapID, swapServerRole, List.mem_cons_self _ _, he, h ▸ hi⟩


theorem swapReplica_eq_some {serverRoles : List (String × ServerRole)}
    {masters : List (Nat × String)} {replicas : List (Nat × List String)}
    {address : String} {shard per : Nat}
    {out : List (String × ServerRole) × List (Nat × List String)}
    (h : swapReplica serverRoles masters replicas address shard per = some out) :
    ∃ serverRole, lookupA serverRoles address = some serverRole ∧
      serverRole.replicas.length < per ∧
      ∃ swapID swapServerRole, (swapID, swapServerRole) ∈ serverRoles ∧ swapID ≠ address ∧
        ∃ swapShard ∈ swapServerRole.replicas, ¬ hasShard serverRole swapShard ∧
          ¬ hasShard swapServerRole shard ∧
          out = swapApply serverRoles masters replicas address shard per swapID
            swapServerRole swapShard := by
  unfold swapReplica at h
  split at h
  · exact absurd h (by simp)
  next serverRole hl =>
    split at h
    · exact absurd h (by simp)
    next h1 =>
      rcases swapOuter_some h with ⟨swapID, swapServerRole, hmem, hne, hinner⟩
      rcases swapInner_some hinner with ⟨swapShard, hss, hns, hnss, hout⟩
      exact ⟨serverRole, hl, by omega, swapID, swapServerRole, hmem, hne, swapShard, hss,
        hns, hnss, hout⟩


theorem MInv_init (servers : List String) (version : Int) (q r0 : Nat) (todo : List Nat) :
    MInv servers q r0 (initRoles servers version) r0 0 todo := by
  have hmem : ∀ p ∈ initRoles servers version, p.2.masters = [] ∧ p.2.replicas = [] := by
    intro p hp
    rcases List.mem_map.1 hp with ⟨a, _, ha⟩
    rw [← ha]
    exact ⟨rfl, rfl⟩
  refine ⟨?_, ?_, ?_, ?_, ?_, ?_, ?_, ?_⟩
  · unfold keysA initRoles
    rw [List.map_map]
    exact List.map_id servers
  · apply List.sum_eq_zero
    intro x hx
    rcases List.mem_map.1 hx with ⟨p, hp, hpe⟩
    rw [← hpe, (hmem p hp).1]
    rfl
  · intro p hp
    rw [(hmem p hp).1]
    simp
  · have hz : ((initRoles servers version).map
        (fun p => p.2.masters.length - q)).sum = 0 := by
      apply List.sum_eq_zero
      intro x hx
      rcases List.mem_map.1 hx with ⟨p, hp, hpe⟩
      rw [← hpe, (hmem p hp).1]
      simp
    rw [hz]
    omega
  · intro p hp s hs
    rw [(hmem p hp).1] at hs
    simp at hs
  · intro p hp p' _ s hs
    rw [(hmem p hp).1] at hs
    simp at hs
  · intro p hp
    rw [(hmem p hp).1]
    exact List.nodup_nil
  · exact fun p hp => (hmem p hp).2


theorem MInv_assignMaster {servers : List String} {q r0 : Nat}
    {roles : List (String × ServerRole)} {rem done : Nat} {shard : Nat}
    {todoRest : List Nat} {masters : List (Nat × String)} {address : String}
    {out : List (String × ServerRole) × List (Nat × String) × Nat}
    (hnd : servers.Nodup)
    (inv : MInv servers q r0 roles rem done (shard :: todoRest))
    (hshard : shard ∉ todoRest)
    (h : assignMaster roles masters address shard q rem = some out) :
    MInv servers q r0 out.1 out.2.2 (done + 1) todoRest := by
  have hk : (keysA roles).Nodup := inv.keys ▸ hnd
  rcases assignMaster_eq_some h with
    ⟨serverRole, hl, hle, hrem, hnm, hnr, hout1, hout2⟩
  have hshard_all : ∀ p ∈ roles, shard ∉ p.2.masters := by
    intro p hp hmem
    exact inv.fresh p hp shard hmem (List.mem_cons_self _ _)
  have hself : (address, serverRole) ∈ roles := lookupA_mem hl
  refine ⟨?_, ?_, ?_, ?_, ?_, ?_, ?_, ?_⟩
  · rw [hout1, keysA_updateA]
    exact inv.keys
  · rw [hout1]
    have := sum_updateA { serverRole with masters := shard :: serverRole.masters }
      (fun r => r.masters.length) hk hl
    simp only [List.length_cons] at this
    have hsum := inv.sum_eq
    omega
  · intro p hp
    rw [hout1] at hp
    rcases mem_updateA hp with hpe | ⟨hpm, _⟩
    · rw [hpe]
      simp only [List.length_cons]
      omega
    · exact inv.cap p hpm
  · rw [hout1]
    have := sum_updateA { serverRole with masters := shard :: serverRole.masters }
      (fun r => r.masters.length - q) hk hl
    simp only [List.length_cons] at this
    have hover := inv.over
    rw [hout2]
    by_cases hq : serverRole.masters.length = q
    · rw [if_pos ⟨hq, hrem hq⟩]
      omega
    · have : ¬ (serverRole.masters.length = q ∧ 0 < rem) := fun hc => hq hc.1
      rw [if_neg this]
      have hlt : serverRole.masters.length < q ∨ q = 0 ∧ serverRole.masters.length = 0 := by
        omega
      omega
  · intro p hp s hs hsin
    rw [hout1] at hp
    rcases mem_updateA hp with hpe | ⟨hpm, _⟩
    · rw [hpe] at hs
      rcases List.mem_cons.1 hs with hse | hse
      · exact hshard (hse ▸ hsin)
      · exact inv.fresh (address, serverRole) hself s hse (List.mem_cons_of_mem _ hsin)
    · exact inv.fresh p hpm s hs (List.mem_cons_of_mem _ hsin)
  · intro p hp p' hp' s hs hs'
    rw [hout1] at hp hp'
    rcases mem_updateA hp with hpe | ⟨hpm, hpa⟩ <;>
      rcases mem_updateA hp' with hpe' | ⟨hpm', hpa'⟩
    · rw [hpe, hpe']
    · exfalso
      rw [hpe] at hs
      rcases List.mem_cons.1 hs with hse | hse
      · exact hshard_all p' hpm' (hse ▸ hs')
      · have := inv.uniq (address, serverRole) hself p' hpm' s hse hs'
        exact hpa' (by rw [← this])
    · exfalso
      rw [hpe'] at hs'
      rcases List.mem_cons.1 hs' with hse | hse
      · exact hshard_all p hpm (hse ▸ hs)
      · have := inv.uniq (address, serverRole) hself p hpm s hse hs
        exact hpa (by rw [← this])
    · exact inv.uniq p hpm p' hpm' s hs hs'
  · intro p hp
    rw [hout1] at hp
    rcases mem_updateA hp with hpe | ⟨hpm, _⟩
    · rw [hpe]
      exact List.nodup_cons.2 ⟨hnm, inv.nodupM (address, serverRole) hself⟩
    · exact inv.nodupM p hpm
  · intro p hp
    rw [hout1] at hp
    rcases mem_updateA hp with hpe | ⟨hpm, _⟩
    · rw [hpe]
      exact inv.repl (address, serverRole) hself
    · exact inv.repl p hpm


theorem assignMastersLoop_inv {servers : List String} {q r0 : Nat}
    (hnd : servers.Nodup) (cands : Nat → List String) :
    ∀ (todo : List Nat) (roles : List (String × ServerRole))
      (masters : List (Nat × String)) (rem done : Nat)
      (out : List (String × ServerRole) × List (Nat × String) × Nat),
      todo.Nodup → MInv servers q r0 roles rem done todo →
      assignMastersLoop cands q todo roles masters rem = some out →
      MInv servers q r0 out.1 out.2.2 (done + todo.length) [] := by
  intro todo
  induction todo with
  | nil =>
    intro roles masters rem done out _ inv h
    injection h with h
    subst h
    have : MInv servers q r0 roles rem done [] :=
      ⟨inv.keys, inv.sum_eq, inv.cap, inv.over, inv.fresh, inv.uniq, inv.nodupM, inv.repl⟩
    simpa using this
  | cons shard rest ih =>
    intro roles masters rem done out hndt inv h
    rw [List.nodup_cons] at hndt
    unfold assignMastersLoop at h
    rcases ht : tryAssignMaster roles masters rem shard q (cands shard) with _ | res
    · rw [ht] at h
      exact absurd h (by simp)
    · rw [ht] at h
      rcases tryAssignMaster_some ht with ⟨address, ha⟩
      have inv' := MInv_assignMaster hnd inv hndt.1 ha
      rcases res with ⟨r, m, rem'⟩
      have := ih r m rem' (done + 1) out hndt.2 inv' h
      simpa [Nat.add_assoc, Nat.add_comm 1 rest.length] using this


theorem RInv_init {servers : List String} {qm r0m : Nat}
    {roles : List (String × ServerRole)} {rem done : Nat} {todo : List Nat}
    (q r0 : Nat) (inv : MInv servers qm r0m roles rem done todo) :
    RInv servers (roles.map (fun p => (p.1, p.2.masters))) q r0 roles r0 0 := by
  refine ⟨inv.keys, rfl, ?_, ?_, ?_, ?_, ?_⟩
  · apply List.sum_eq_zero
    intro x hx
    rcases List.mem_map.1 hx with ⟨p, hp, hpe⟩
    rw [← hpe, inv.repl p hp]
    rfl
  · intro p hp
    rw [inv.repl p hp]
    simp
  · have hz : (roles.map (fun p => p.2.replicas.length - q)).sum = 0 := by
      apply List.sum_eq_zero
      intro x hx
      rcases List.mem_map.1 hx with ⟨p, hp, hpe⟩
      rw [← hpe, inv.repl p hp]
      simp
    rw [hz]
    omega
  · intro p hp s hs
    rw [inv.repl p hp] at hs
    simp at hs
  · intro p hp
    rw [inv.repl p hp]
    exact List.nodup_nil


theorem RInv_assignReplica {servers : List String} {M0 : List (String × List Nat)}
    {q r0 : Nat} {roles : List (String × ServerRole)} {rem done : Nat} {shard : Nat}
    {masters : List (Nat × String)} {replicas : List (Nat × List String)}
    {address : String}
    {out : List (String × ServerRole) × List (Nat × List String) × Nat}
    (hnd : servers.Nodup)
    (inv : RInv servers M0 q r0 roles rem done)
    (h : assignReplica roles masters replicas address shard q rem = some out) :
    RInv servers M0 q r0 out.1 out.2.2 (done + 1) := by
  have hk : (keysA roles).Nodup := inv.keys ▸ hnd
  rcases assignReplica_eq_some h with
    ⟨serverRole, hl, hle, hrem, hnm, hnr, hout1, hout2⟩
  have hself : (address, serverRole) ∈ roles := lookupA_mem hl
  refine ⟨?_, ?_, ?_, ?_, ?_, ?_, ?_⟩
  · rw [hout1, keysA_updateA]
    exact inv.keys
  · rw [hout1, projM_updateA serverRole
      { serverRole with replicas := shard :: serverRole.replicas } hk hl rfl]
    exact inv.mproj
  · rw [hout1]
    have := sum_updateA { serverRole with replicas := shard :: serverRole.replicas }
      (fun r => r.replicas.length) hk hl
    simp only [List.length_cons] at this
    have hsum := inv.sum_eq
    omega
  · intro p hp
    rw [hout1] at hp
    rcases mem_updateA hp with hpe | ⟨hpm, _⟩
    · rw [hpe]
      simp only [List.length_cons]
      omega
    · exact inv.cap p hpm
  · rw [hout1]
    have := sum_updateA { serverRole with replicas := shard :: serverRole.replicas }
      (fun r => r.replicas.length - q) hk hl
    simp only [List.length_cons] at this
    have hover := inv.over
    rw [hout2]
    by_cases hq : serverRole.replicas.length = q
    · rw [if_pos ⟨hq, hrem hq⟩]
      omega
    · have : ¬ (serverRole.replicas.length = q ∧ 0 < rem) := fun hc => hq hc.1
      rw [if_neg this]
      omega
  · intro p hp s hs
    rw [hout1] at hp
    rcases mem_updateA hp with hpe | ⟨hpm, _⟩
    · rw [hpe] at hs ⊢
      rcases List.mem_cons.1 hs with hse | hse
      · exact hse ▸ hnm
      · exact inv.disj (address, serverRole) hself s hse
    · exact inv.disj p hpm s hs
  · intro p hp
    rw [hout1] at hp
    rcases mem_updateA hp with hpe | ⟨hpm, _⟩
    · rw [hpe]
      exact List.nodup_cons.2 ⟨hnr, inv.nodupR (address, serverRole) hself⟩
    · exact inv.nodupR p hpm


/-- The swap case.  Under the invariant, both inner `assignReplica` calls of
`swapApply` succeed, and the state they produce satisfies the invariant with
one more replica placed and the remainder untouched. -/
theorem RInv_swapApply {servers : List String} {M0 : List (String × List Nat)}
    {q r0 : Nat} {roles : List (String × ServerRole)} {rem done : Nat}
    {masters : List (Nat × String)} {replicas : List (Nat × List String)}
    {address : String} {shard : Nat} {serverRole : ServerRole}
    {swapID : String} {swapServerRole : ServerRole} {swapShard : Nat}
    (hnd : servers.Nodup)
    (inv : RInv servers M0 q r0 roles rem done)
    (hq64 : q + 1 < 2 ^ 64)
    (hl : lookupA roles address = some serverRole)
    (hlen : serverRole.replicas.length < q)
    (hmem : (swapID, swapServerRole) ∈ roles) (hne : swapID ≠ address)
    (hss : swapShard ∈ swapServerRole.replicas)
    (hns : ¬ hasShard serverRole swapShard) (hnss : ¬ hasShard swapServerRole shard) :
    RInv servers M0 q r0
      (swapApply roles masters replicas address shard q swapID swapServerRole swapShard).1
      rem (done + 1) := by
  have hk : (keysA roles).Nodup := inv.keys ▸ hnd
  have hlswap : lookupA roles swapID = some swapServerRole := mem_lookupA hk hmem
  have hnodupS : swapServerRole.replicas.Nodup := inv.nodupR (swapID, swapServerRole) hmem
  have hcapS : swapServerRole.replicas.length ≤ q + 1 := inv.cap (swapID, swapServerRole) hmem
  -- the swapped-out role
  set rS' : ServerRole :=
    { swapServerRole with
      replicas := swapServerRole.replicas.filter (fun x => x ≠ swapShard) } with hrS'
  have hlenS : rS'.replicas.length + 1 = swapServerRole.replicas.length :=
    length_filter_ne_of_nodup hnodupS hss
  have hroles1 : lookupA (updateA roles swapID rS') swapID = some rS' :=
    lookupA_updateA_self rS' hlswap
  have hrolesA : lookupA (updateA roles swapID rS') address = some serverRole := by
    rw [lookupA_updateA_ne _ rS' (fun he => hne he.symm)]
    exact hl
  have hsubS : ∀ x ∈ rS'.replicas, x ∈ swapServerRole.replicas := by
    intro x hx
    exact (List.mem_filter.1 hx).1
  -- first inner call: give `shard` to `swapID`, capacity MaxUint64
  have hc1 : ¬ rS'.replicas.length > 2 ^ 64 - 1 := by omega
  have hc2 : ¬ (rS'.replicas.length = 2 ^ 64 - 1 ∧ (0 : Nat) = 0) := by
    intro hc
    omega
  have hc3 : ¬ hasShard rS' shard := by
    intro hc
    rcases hc with hc | hc
    · exact hnss (Or.inl hc)
    · exact hnss (Or.inr (hsubS _ hc))
  have hcall1 := assignReplica_succeeds masters
    (removeReplica replicas swapShard swapID) shard hroles1 hc1 hc2 hc3
  -- state after the first inner call
  set rS'' : ServerRole := { rS' with replicas := shard :: rS'.replicas } with hrS''
  set roles2 : List (String × ServerRole) :=
    updateA (updateA roles swapID rS') swapID rS'' with hroles2
  -- second inner call: give `swapShard` to `address`, real capacity
  have hroles2A : lookupA roles2 address = some serverRole := by
    rw [hroles2, lookupA_updateA_ne _ rS'' (fun he => hne he.symm)]
    exact hrolesA
  have hd1 : ¬ serverRole.replicas.length > q := by omega
  have hd2 : ¬ (serverRole.replicas.length = q ∧ (0 : Nat) = 0) := by
    intro hc
    omega
  have hd3 : ¬ hasShard serverRole swapShard := hns
  have hcall2 := assignReplica_succeeds masters
    (setA (removeReplica replicas swapShard swapID) shard
      (((lookupA (removeReplica replicas swapShard swapID) shard).getD []) ++ [swapID]))
    swapShard hroles2A hd1 hd2 hd3
  -- the final state of swapApply
  set rA' : ServerRole :=
    { serverRole with replicas := swapShard :: serverRole.replicas } with hrA'
  have happly : (swapApply roles masters replicas address shard q swapID swapServerRole
      swapShard).1 = updateA roles2 address rA' := by
    simp only [swapApply]
    rw [hcall1]
    simp only []
    rw [hcall2]
  rw [happly]
  -- facts about roles2
  have hk1 : (keysA (updateA roles swapID rS')).Nodup := by
    rw [keysA_updateA]
    exact hk
  have hk2 : (keysA roles2).Nodup := by
    rw [hroles2, keysA_updateA]
    exact hk1
  have hroles2S : lookupA roles2 swapID = some rS'' := by
    rw [hroles2]
    exact lookupA_updateA_self rS'' hroles1
  have hmemA2 : (address, serverRole) ∈ roles2 := lookupA_mem hroles2A
  -- membership in roles2 reduces to: the swapID entry, or an original entry
  have hmem2 : ∀ p ∈ roles2, p = (swapID, rS'') ∨ (p ∈ roles ∧ p.1 ≠ swapID) := by
    intro p hp
    rw [hroles2] at hp
    rcases mem_updateA hp with hpe | ⟨hpm, hpa⟩
    · exact Or.inl hpe
    · rcases mem_updateA hpm with hpe' | ⟨hpm', hpa'⟩
      · exact absurd (by rw [hpe']) hpa
      · exact Or.inr ⟨hpm', hpa'⟩
  have hmem3 : ∀ p ∈ updateA roles2 address rA',
      p = (address, rA') ∨ p = (swapID, rS'') ∨
        (p ∈ roles ∧ p.1 ≠ swapID ∧ p.1 ≠ address) := by
    intro p hp
    rcases mem_updateA hp with hpe | ⟨hpm, hpa⟩
    · exact Or.inl hpe
    · rcases hmem2 p hpm with hpe' | ⟨hpm', hpa'⟩
      · exact Or.inr (Or.inl hpe')
      · exact Or.inr (Or.inr ⟨hpm', hpa', hpa⟩)
  -- length facts for the updated roles
  have hfS'' : rS''.replicas.length = rS'.replicas.length + 1 := by
    rw [hrS'']
    simp
  have hfA' : rA'.replicas.length = serverRole.replicas.length + 1 := by
    rw [hrA']
    simp
  -- length bookkeeping for the three updates
  have hsum1 : ((updateA roles swapID rS').map (fun p => p.2.replicas.length)).sum
      + swapServerRole.replicas.length =
      (roles.map (fun p => p.2.replicas.length)).sum + rS'.replicas.length :=
    sum_updateA rS' (fun r => r.replicas.length) hk hlswap
  have hsum2 : (roles2.map (fun p => p.2.replicas.length)).sum + rS'.replicas.length =
      ((updateA roles swapID rS').map (fun p => p.2.replicas.length)).sum
        + rS''.replicas.length := by
    rw [hroles2]
    exact sum_updateA rS'' (fun r => r.replicas.length) hk1 hroles1
  have hsum3 : ((updateA roles2 address rA').map (fun p => p.2.replicas.length)).sum
      + serverRole.replicas.length =
      (roles2.map (fun p => p.2.replicas.length)).sum + rA'.replicas.length :=
    sum_updateA rA' (fun r => r.replicas.length) hk2 hroles2A
  -- overflow values: everything involved stays at or below the quota
  have hov1 : rS'.replicas.length - q = 0 := by omega
  have hov2 : rS''.replicas.length - q = swapServerRole.replicas.length - q := by omega
  have hov3 : rA'.replicas.length - q = 0 := by omega
  have hov4 : serverRole.replicas.length - q = 0 := by omega
  have hover1 : ((updateA roles swapID rS').map (fun p => p.2.replicas.length - q)).sum
      + (swapServerRole.replicas.length - q) =
      (roles.map (fun p => p.2.replicas.length - q)).sum + (rS'.replicas.length - q) :=
    sum_updateA rS' (fun r => r.replicas.length - q) hk hlswap
  have hover2 : (roles2.map (fun p => p.2.replicas.length - q)).sum
      + (rS'.replicas.length - q) =
      ((updateA roles swapID rS').map (fun p => p.2.replicas.length - q)).sum
        + (rS''.replicas.length - q) := by
    rw [hroles2]
    exact sum_updateA rS'' (fun r => r.replicas.length - q) hk1 hroles1
  have hover3 : ((updateA roles2 address rA').map (fun p => p.2.replicas.length - q)).sum
      + (serverRole.replicas.length - q) =
      (roles2.map (fun p => p.2.replicas.length - q)).sum + (rA'.replicas.length - q) :=
    sum_updateA rA' (fun r => r.replicas.length - q) hk2 hroles2A
  refine ⟨?_, ?_, ?_, ?_, ?_, ?_, ?_⟩
  · rw [keysA_updateA, hroles2, keysA_updateA, keysA_updateA]
    exact inv.keys
  · rw [projM_updateA serverRole rA' hk2 hroles2A rfl, hroles2,
      projM_updateA rS' rS'' hk1 hroles1 rfl, projM_updateA swapServerRole rS' hk hlswap rfl]
    exact inv.mproj
  · have hs := inv.sum_eq
    omega
  · intro p hp
    rcases hmem3 p hp with hpe | hpe | ⟨hpm, _, _⟩
    · rw [hpe]
      show rA'.replicas.length ≤ q + 1
      omega
    · rw [hpe]
      show rS''.replicas.length ≤ q + 1
      omega
    · exact inv.cap p hpm
  · have ho := inv.over
    rw [hov1] at hover1 hover2
    rw [hov2] at hover2
    rw [hov3, hov4] at hover3
    omega
  · intro p hp s hs
    rcases hmem3 p hp with hpe | hpe | ⟨hpm, _, _⟩
    · rw [hpe] at hs ⊢
      rcases List.mem_cons.1 hs with hse | hse
      · subst hse
        exact fun hc => hns (Or.inl hc)
      · exact inv.disj (address, serverRole) (lookupA_mem hl) s hse
    · rw [hpe] at hs ⊢
      show s ∉ rS''.masters
      rcases List.mem_cons.1 hs with hse | hse
      · subst hse
        exact fun hc => hnss (Or.inl hc)
      · exact inv.disj (swapID, swapServerRole) hmem s (hsubS s hse)
    · exact inv.disj p hpm s hs
  · intro p hp
    rcases hmem3 p hp with hpe | hpe | ⟨hpm, _, _⟩
    · rw [hpe]
      apply List.nodup_cons.2
      exact ⟨fun hc => hns (Or.inr hc), inv.nodupR (address, serverRole) (lookupA_mem hl)⟩
    · rw [hpe]
      show (shard :: rS'.replicas).Nodup
      apply List.nodup_cons.2
      exact ⟨fun hc => hnss (Or.inr (hsubS _ hc)), List.Nodup.filter _ hnodupS⟩
    · exact inv.nodupR p hpm


theorem RInv_swapReplica {servers : List String} {M0 : List (String × List Nat)}
    {q r0 : Nat} {roles : List (String × ServerRole)} {rem done : Nat}
    {masters : List (Nat × String)} {replicas : List (Nat × List String)}
    {address : String} {shard : Nat}
    {out : List (String × ServerRole) × List (Nat × List String)}
    (hnd : servers.Nodup) (inv : RInv servers M0 q r0 roles rem done)
    (hq64 : q + 1 < 2 ^ 64)
    (h : swapReplica roles masters replicas address shard q = some out) :
    RInv servers M0 q r0 out.1 rem (done + 1) := by
  rcases swapReplica_eq_some h with
    ⟨serverRole, hl, hlen, swapID, swapServerRole, hmem, hne, swapShard, hss, hns, hnss, hout⟩
  rw [hout]
  exact RInv_swapApply hnd inv hq64 hl hlen hmem hne hss hns hnss


theorem assignReplicasShardLoop_inv {servers : List String} {M0 : List (String × List Nat)}
    {q r0 : Nat} (hnd : servers.Nodup) (hq64 : q + 1 < 2 ^ 64)
    (masters : List (Nat × String)) (cands : Nat → List String)
    (serversIter : List String) :
    ∀ (todo : List Nat) (roles : List (String × ServerRole))
      (replicas : List (Nat × List String)) (rem done : Nat)
      (out : List (String × ServerRole) × List (Nat × List String) × Nat),
      RInv servers M0 q r0 roles rem done →
      assignReplicasShardLoop masters cands serversIter q todo roles replicas rem = some out →
      RInv servers M0 q r0 out.1 out.2.2 (done + todo.length) := by
  intro todo
  induction todo with
  | nil =>
    intro roles replicas rem done out inv h
    injection h with h
    subst h
    simpa using inv
  | cons shard rest ih =>
    intro roles replicas rem done out inv h
    unfold assignReplicasShardLoop at h
    rcases ht : tryAssignReplica roles masters replicas rem shard q (cands shard) with _ | res
    · rw [ht] at h
      rcases hs : trySwap roles masters replicas shard q serversIter with _ | res2
      · rw [hs] at h
        exact absurd h (by simp)
      · rw [hs] at h
        rcases trySwap_some hs with ⟨address, ha⟩
        have inv' := RInv_swapReplica hnd inv hq64 ha
        rcases res2 with ⟨r, rep⟩
        have := ih r rep rem (done + 1) out inv' h
        simpa [Nat.add_assoc, Nat.add_comm 1 rest.length] using this
    · rw [ht] at h
      rcases tryAssignReplica_some ht with ⟨address, ha⟩
      have inv' := RInv_assignReplica hnd inv ha
      rcases res with ⟨r, rep, rem'⟩
      have := ih r rep rem' (done + 1) out inv' h
      simpa [Nat.add_assoc, Nat.add_comm 1 rest.length] using this


theorem assignReplicasLoop_inv {servers : List String} {M0 : List (String × List Nat)}
    {q r0 : Nat} (hnd : servers.Nodup) (hq64 : q + 1 < 2 ^ 64)
    (masters : List (Nat × String)) (cands : Nat → List String)
    (serversIter : List String) (numShards : Nat) :
    ∀ (n : Nat) (roles : List (String × ServerRole))
      (replicas : List (Nat × List String)) (rem done : Nat)
      (out : List (String × ServerRole) × List (Nat × List String) × Nat),
      RInv servers M0 q r0 roles rem done →
      assignReplicasLoop masters cands serversIter q numShards n roles replicas rem =
        some out →
      RInv servers M0 q r0 out.1 out.2.2 (done + n * numShards) := by
  intro n
  induction n with
  | zero =>
    intro roles replicas rem done out inv h
    injection h with h
    subst h
    simpa using inv
  | succ n ih =>
    intro roles replicas rem done out inv h
    unfold assignReplicasLoop at h
    rcases hs : assignReplicasShardLoop masters cands serversIter q (List.range numShards)
        roles replicas rem with _ | res
    · rw [hs] at h
      exact absurd h (by simp)
    · rw [hs] at h
      rcases res with ⟨r, rep, rem'⟩
      have inv' := assignReplicasShardLoop_inv hnd hq64 masters cands serversIter
        (List.range numShards) roles replicas rem done (r, rep, rem') inv hs
      rw [List.length_range] at inv'
      have := ih r rep rem' (done + numShards) out inv' h
      have harith : done + numShards + n * numShards = done + (n + 1) * numShards := by ring
      rw [harith] at this
      exact this


/-- Running a successful `AssignRoles` pass yields the master-phase invariant
for the intermediate role table and the replica-phase invariant for the
published one. -/
theorem assignRoles_run {numShards numReplicas : Nat} {servers : List String}
    {oldMasters : Nat → Option String} {oldReplicas shardLocations : Nat → List String}
    {version : Int} {roles : List (String × ServerRole)}
    (hnd : servers.Nodup)
    (h64 : numShards * numReplicas < 2 ^ 64 - 1)
    (hsucc : assignRoles numShards numReplicas servers oldMasters oldReplicas
      shardLocations version = some roles) :
    0 < servers.length ∧
    ∃ rolesM remM rem',
      MInv servers (numShards / servers.length) (numShards % servers.length) rolesM remM
        numShards [] ∧
      RInv servers (rolesM.map (fun p => (p.1, p.2.masters)))
        (numShards * numReplicas / servers.length)
        (numShards * numReplicas % servers.length)
        roles rem' (numReplicas * numShards) := by
  unfold assignRoles at hsucc
  rw [Nat.mod_eq_of_lt (show numShards * numReplicas < 2 ^ 64 by omega)] at hsucc
  by_cases hemp : servers.isEmpty
  · rw [if_pos hemp] at hsucc
    exact absurd hsucc (by simp)
  rw [if_neg hemp] at hsucc
  simp only [] at hsucc
  have hK : 0 < servers.length := by
    rcases servers with _ | _
    · exact absurd rfl hemp
    · simp
  refine ⟨hK, ?_⟩
  rcases hm : assignMastersLoop
      (masterCands oldMasters oldReplicas shardLocations servers)
      (numShards / servers.length) (List.range numShards) (initRoles servers version) []
      (numShards % servers.length) with _ | resM
  · rw [hm] at hsucc
    exact absurd hsucc (by simp)
  rw [hm] at hsucc
  rcases resM with ⟨rolesM, mastersM, remM⟩
  have hminit := MInv_init servers version (numShards / servers.length)
    (numShards % servers.length) (List.range numShards)
  have hMInv := assignMastersLoop_inv hnd
    (masterCands oldMasters oldReplicas shardLocations servers) (List.range numShards)
    (initRoles servers version) [] (numShards % servers.length) 0
    (rolesM, mastersM, remM) (List.nodup_range numShards) hminit hm
  rw [List.length_range] at hMInv
  have hRinit := RInv_init (numShards * numReplicas / servers.length)
    (numShards * numReplicas % servers.length) hMInv
  have hsucc2 : (match assignReplicasLoop mastersM
      (masterCands oldMasters oldReplicas shardLocations servers) servers
      (numShards * numReplicas / servers.length) numShards numReplicas rolesM []
      (numShards * numReplicas % servers.length) with
    | none => none
    | some (serverRoles', _, _) => some serverRoles') = some roles := hsucc
  rcases hr : assignReplicasLoop mastersM
      (masterCands oldMasters oldReplicas shardLocations servers) servers
      (numShards * numReplicas / servers.length) numShards numReplicas rolesM []
      (numShards * numReplicas % servers.length) with _ | resR
  · rw [hr] at hsucc2
    exact absurd hsucc2 (by simp)
  rw [hr] at hsucc2
  rcases resR with ⟨rolesR, replicasR, remR⟩
  have hsucc3 : some rolesR = some roles := hsucc2
  injection hsucc3 with hsucc3
  subst hsucc3
  have hq64 : numShards * numReplicas / servers.length + 1 < 2 ^ 64 := by
    have := Nat.div_le_self (numShards * numReplicas) servers.length
    omega
  have hRInv := assignReplicasLoop_inv hnd hq64 mastersM
    (masterCands oldMasters oldReplicas shardLocations servers) servers numShards
    numReplicas rolesM [] (numShards * numReplicas % servers.length) 0
    (rolesR, replicasR, remR) hRinit hr
  exact ⟨rolesM, remM, remR, by simpa using hMInv, by simpa using hRInv⟩


theorem foldl_shard_update_fst (upd : ShardAddresses → ShardAddresses) :
    ∀ (shards : List Nat) (acc : List (Nat × ShardAddresses)),
      ((shards.foldl (fun acc shard =>
          acc.map (fun q => if q.1 = shard then (q.1, upd q.2) else q)) acc).map Prod.fst) =
        acc.map Prod.fst := by
  intro shards
  induction shards with
  | nil => intro acc; rfl
  | cons s rest ih =>
    intro acc
    rw [List.foldl_cons, ih, List.map_map]
    apply List.map_congr_left
    intro q _
    by_cases hqs : q.1 = s
    · simp [hqs, Function.comp]
    · simp [hqs, Function.comp]


theorem buildAddresses_fst (numShards : Nat) (serverRoles : List (String × ServerRole)) :
    (buildAddresses numShards serverRoles).map Prod.fst = List.range numShards := by
  have key : ∀ (rl : List (String × ServerRole)) (acc : List (Nat × ShardAddresses)),
      ((rl.foldl (fun addrs p =>
          p.2.replicas.foldl (fun acc shard =>
            acc.map (fun q =>
              if q.1 = shard then (q.1, { q.2 with replicas := q.2.replicas ++ [p.2.address] })
              else q))
            (p.2.masters.foldl (fun acc shard =>
              acc.map (fun q =>
                if q.1 = shard then (q.1, { q.2 with master := p.2.address }) else q))
              addrs)) acc).map Prod.fst) = acc.map Prod.fst := by
    intro rl
    induction rl with
    | nil => intro acc; rfl
    | cons p rest ih =>
      intro acc
      rw [List.foldl_cons, ih]
      have h1 : ((p.2.masters.foldl (fun acc shard =>
          acc.map (fun q =>
            if q.1 = shard then (q.1, { q.2 with master := p.2.address }) else q))
          acc).map Prod.fst) = acc.map Prod.fst :=
        foldl_shard_update_fst (fun sa => { sa with master := p.2.address }) p.2.masters acc
      have h2 : ((p.2.replicas.foldl (fun acc shard =>
          acc.map (fun q =>
            if q.1 = shard then (q.1, { q.2 with replicas := q.2.replicas ++ [p.2.address] })
            else q))
          (p.2.masters.foldl (fun acc shard =>
            acc.map (fun q =>
              if q.1 = shard then (q.1, { q.2 with master := p.2.address }) else q))
            acc)).map Prod.fst) =
          ((p.2.masters.foldl (fun acc shard =>
            acc.map (fun q =>
              if q.1 = shard then (q.1, { q.2 with master := p.2.address }) else q))
            acc).map Prod.fst) :=
        foldl_shard_update_fst
          (fun sa => { sa with replicas := sa.replicas ++ [p.2.address] }) p.2.replicas _
      exact h2.trans h1
  have hball : (buildAddresses numShards serverRoles).map Prod.fst =
      (((List.range numShards).map
        (fun shard => (shard, ShardAddresses.mk "" []))).map Prod.fst) :=
    key serverRoles ((List.range numShards).map (fun shard => (shard, ShardAddresses.mk "" [])))
  rw [hball, List.map_map]
  exact List.map_id (List.range numShards)


theorem length_le_one_of_all_eq {α : Type} :
    ∀ {l : List α}, (∀ a ∈ l, ∀ b ∈ l, a = b) → l.Nodup → l.length ≤ 1
  | [], _, _ => by simp
  | [a], _, _ => by simp
  | a :: b :: t, h, hnd => by
    exfalso
    rw [List.nodup_cons] at hnd
    exact hnd.1 (by rw [h a (by simp) b (by simp)]; simp)


/-- C2: for every successful `AssignRoles` pass over `K ≥ 1` live servers with
`N` shards and `R` replicas per shard, each server's masters set has size
`⌊N/K⌋` or `⌈N/K⌉` and its replicas set has size `⌊N·R/K⌋` or `⌈N·R/K⌉`
(with `⌈x/K⌉` written `(x + K - 1) / K`). -/
theorem assignRoles_balanced {numShards numReplicas : Nat} {servers : List String}
    {oldMasters : Nat → Option String} {oldReplicas shardLocations : Nat → List String}
    {version : Int} {roles : List (String × ServerRole)}
    (hnd : servers.Nodup)
    (h64 : numShards * numReplicas < 2 ^ 64 - 1)
    (hsucc : assignRoles numShards numReplicas servers oldMasters oldReplicas
      shardLocations version = some roles) :
    ∀ p ∈ roles,
      (p.2.masters.length = numShards / servers.length ∨
        p.2.masters.length = (numShards + servers.length - 1) / servers.length) ∧
      (p.2.replicas.length = numShards * numReplicas / servers.length ∨
        p.2.replicas.length =
          (numShards * numReplicas + servers.length - 1) / servers.length) := by
  rcases assignRoles_run hnd h64 hsucc with ⟨hK, rolesM, remM, rem', hMInv, hRInv⟩
  have hkeysM : rolesM.length = servers.length := by
    have h := congrArg List.length hMInv.keys
    rw [keysA, List.length_map] at h
    exact h
  have hkeysR : roles.length = servers.length := by
    have h := congrArg List.length hRInv.keys
    rw [keysA, List.length_map] at h
    exact h
  have hMsum : (rolesM.map (fun p => p.2.masters.length)).sum =
      (rolesM.map (fun p => p.2.masters.length)).length * (numShards / servers.length) +
        numShards % servers.length := by
    rw [hMInv.sum_eq, List.length_map, hkeysM]
    exact (Nat.div_add_mod numShards servers.length).symm
  have hMcap : ∀ c ∈ rolesM.map (fun p => p.2.masters.length),
      c ≤ numShards / servers.length + 1 := by
    intro c hc
    rcases List.mem_map.1 hc with ⟨p, hp, hpe⟩
    rw [← hpe]
    exact hMInv.cap p hp
  have hMover : ((rolesM.map (fun p => p.2.masters.length)).map
      (fun c => c - numShards / servers.length)).sum + remM =
      numShards % servers.length := by
    rw [List.map_map]
    exact hMInv.over
  have hMbal := counts_balanced hMsum hMcap hMover
  have hRsum : (roles.map (fun p => p.2.replicas.length)).sum =
      (roles.map (fun p => p.2.replicas.length)).length *
        (numShards * numReplicas / servers.length) +
        numShards * numReplicas % servers.length := by
    rw [hRInv.sum_eq, List.length_map, hkeysR, Nat.mul_comm numReplicas numShards]
    exact (Nat.div_add_mod (numShards * numReplicas) servers.length).symm
  have hRcap : ∀ c ∈ roles.map (fun p => p.2.replicas.length),
      c ≤ numShards * numReplicas / servers.length + 1 := by
    intro c hc
    rcases List.mem_map.1 hc with ⟨p, hp, hpe⟩
    rw [← hpe]
    exact hRInv.cap p hp
  have hRover : ((roles.map (fun p => p.2.replicas.length)).map
      (fun c => c - numShards * numReplicas / servers.length)).sum + rem' =
      numShards * numReplicas % servers.length := by
    rw [List.map_map]
    exact hRInv.over
  have hRbal := counts_balanced hRsum hRcap hRover
  intro p hp
  constructor
  · have hpm : (p.1, p.2.masters) ∈ roles.map (fun p => (p.1, p.2.masters)) :=
      List.mem_map_of_mem _ hp
    rw [hRInv.mproj] at hpm
    rcases List.mem_map.1 hpm with ⟨p0, hp0, hpe⟩
    have hmeq : p.2.masters = p0.2.masters := (congrArg Prod.snd hpe).symm
    have hc := hMbal p0.2.masters.length (List.mem_map_of_mem _ hp0)
    rw [hmeq]
    by_cases hr0 : numShards % servers.length = 0
    · exact Or.inl (hc.2 hr0)
    · rcases hc.1 with h | h
      · exact Or.inl h
      · right
        rw [ceilDiv_cases hK, if_neg hr0, h]
  · have hc := hRbal p.2.replicas.length (List.mem_map_of_mem _ hp)
    by_cases hr0 : numShards * numReplicas % servers.length = 0
    · exact Or.inl (hc.2 hr0)
    · rcases hc.1 with h | h
      · exact Or.inl h
      · right
        rw [ceilDiv_cases hK, if_neg hr0, h]


theorem assignRoles_balanced_witness :
    assignRoles 5 1 ["a", "b"] (fun _ => none) (fun _ => []) (fun _ => []) 0 =
      some [("a", ⟨"a", 0, [2, 1, 0], [4, 3]⟩), ("b", ⟨"b", 0, [4, 3], [2, 1, 0]⟩)] ∧
    ∀ p ∈ [(("a" : String), (⟨"a", 0, [2, 1, 0], [4, 3]⟩ : ServerRole)),
        ("b", ⟨"b", 0, [4, 3], [2, 1, 0]⟩)],
      (p.2.masters.length = 5 / 2 ∨ p.2.masters.length = (5 + 2 - 1) / 2) ∧
      (p.2.replicas.length = 5 * 1 / 2 ∨ p.2.replicas.length = (5 * 1 + 2 - 1) / 2) :=
  ⟨by decide,
    @assignRoles_balanced 5 1 ["a", "b"] (fun _ => none) (fun _ => []) (fun _ => []) 0
      [(("a" : String), (⟨"a", 0, [2, 1, 0], [4, 3]⟩ : ServerRole)),
        ("b", ⟨"b", 0, [4, 3], [2, 1, 0]⟩)]
      (by decide) (by decide) (by decide)⟩


/-- C3: for every role table written by a successful `AssignRoles` pass, no
server holds the same shard in both its masters and its replicas set, at most
one server holds any given shard as master, and the derived `Addresses` record
has exactly one entry per shard `0, …, numShards - 1` (so each shard carries a
single master address, written by at most one server). -/
theorem assignRoles_role_safety {numShards numReplicas : Nat} {servers : List String}
    {oldMasters : Nat → Option String} {oldReplicas shardLocations : Nat → List String}
    {version : Int} {roles : List (String × ServerRole)}
    (hnd : servers.Nodup)
    (h64 : numShards * numReplicas < 2 ^ 64 - 1)
    (hsucc : assignRoles numShards numReplicas servers oldMasters oldReplicas
      shardLocations version = some roles) :
    (∀ p ∈ roles, ∀ s ∈ p.2.replicas, s ∉ p.2.masters) ∧
    (∀ shard : Nat,
      (roles.filter (fun p => decide (shard ∈ p.2.masters))).length ≤ 1) ∧
    (buildAddresses numShards roles).map Prod.fst = List.range numShards := by
  rcases assignRoles_run hnd h64 hsucc with ⟨hK, rolesM, remM, rem', hMInv, hRInv⟩
  have hkn : (keysA roles).Nodup := by rw [hRInv.keys]; exact hnd
  have hndR : roles.Nodup := List.Nodup.of_map Prod.fst hkn
  have huniq : ∀ p ∈ roles, ∀ p' ∈ roles, ∀ s, s ∈ p.2.masters → s ∈ p'.2.masters →
      p = p' := by
    intro p hp p' hp' s hs hs'
    have hpm : (p.1, p.2.masters) ∈ roles.map (fun p => (p.1, p.2.masters)) :=
      List.mem_map_of_mem _ hp
    have hpm' : (p'.1, p'.2.masters) ∈ roles.map (fun p => (p.1, p.2.masters)) :=
      List.mem_map_of_mem _ hp'
    rw [hRInv.mproj] at hpm hpm'
    rcases List.mem_map.1 hpm with ⟨p0, hp0, hpe⟩
    rcases List.mem_map.1 hpm' with ⟨p0', hp0', hpe'⟩
    injection hpe with e1 em
    injection hpe' with e2 em'
    have h00 : p0 = p0' :=
      hMInv.uniq p0 hp0 p0' hp0' s (by rw [em]; exact hs) (by rw [em']; exact hs')
    have hfst : p.1 = p'.1 := by rw [← e1, ← e2, h00]
    exact nodup_keys_ext hkn hp hp' hfst
  refine ⟨hRInv.disj, ?_, buildAddresses_fst numShards roles⟩
  intro shard
  apply length_le_one_of_all_eq
  · intro a ha b hb
    exact huniq a (List.mem_of_mem_filter ha) b (List.mem_of_mem_filter hb) shard
      (by simpa using List.of_mem_filter ha) (by simpa using List.of_mem_filter hb)
  · exact hndR.filter _


theorem assignRoles_role_safety_witness :
    assignRoles 4 1 ["x", "y"] (fun _ => none) (fun _ => []) (fun _ => []) 0 =
      some [("x", ⟨"x", 0, [1, 0], [3, 2]⟩), ("y", ⟨"y", 0, [3, 2], [1, 0]⟩)] ∧
    ((∀ p ∈ [(("x" : String), (⟨"x", 0, [1, 0], [3, 2]⟩ : ServerRole)),
          ("y", ⟨"y", 0, [3, 2], [1, 0]⟩)], ∀ s ∈ p.2.replicas, s ∉ p.2.masters) ∧
      (∀ shard : Nat,
        ([(("x" : String), (⟨"x", 0, [1, 0], [3, 2]⟩ : ServerRole)),
            ("y", ⟨"y", 0, [3, 2], [1, 0]⟩)].filter
          (fun p => decide (shard ∈ p.2.masters))).length ≤ 1) ∧
      (buildAddresses 4 [(("x" : String), (⟨"x", 0, [1, 0], [3, 2]⟩ : ServerRole)),
          ("y", ⟨"y", 0, [3, 2], [1, 0]⟩)]).map Prod.fst = List.range 4) :=
  ⟨by decide,
    @assignRoles_role_safety 4 1 ["x", "y"] (fun _ => none) (fun _ => []) (fun _ => []) 0
      [(("x" : String), (⟨"x", 0, [1, 0], [3, 2]⟩ : ServerRole)),
        ("y", ⟨"y", 0, [3, 2], [1, 0]⟩)]
      (by decide) (by decide) (by decide)⟩

end PFS
